import Mathlib

/-!
Verification of the reporting/decoding engine of the OrthogonalTransformerProbing
repository (`src/reporting/reporter.py`), via a shallow embedding in Lean 4.

Numeric model: Python/NumPy floats are modelled as rationals (`ℚ`).  Matrix or
vector cells that the source sets to `np.inf` / `np.nan` (used only as
"excluded"/"forbidden" markers) are modelled as `Option ℚ` with `none` for the
excluded value.  `int(x)` on a nonnegative float is modelled as `Nat.floor`.
-/

namespace OrthoProbe

/-! ## `Reporter.get_embedding_gate` (reporter.py lines 24-39)

The gate is `(np.abs(diagonal_probe) > self._probe_threshold).astype(np.float)`,
a 0/1 vector over the probe dimensionality.  When `drop_parts` is set (and
nonzero: Python truthiness), the contiguous slice
`np.where(gate)[-1][int(T*p/k) : int(T*(p+1)/k)]` of currently-true indices is
zeroed, where `T = np.sum(gate)`. -/

/-- Embeds `(np.abs(w) > θ).astype(float)`: the 0/1 gate over the weight vector. -/
def gateOfWeights (w : List ℚ) (θ : ℚ) : List ℚ :=
  w.map (fun x => if θ < |x| then 1 else 0)

/-- Embeds `np.where(g)[-1]` for a 1-D array: the indices of the nonzero entries,
in increasing order. -/
def trueIndices (g : List ℚ) : List ℕ :=
  (List.range g.length).filter (fun j => g.getD j 0 ≠ 0)

/-- Embeds `g[ds] = 0.`: zero the positions listed in `ds` (positions counted from
`j`, the index of the head of the remaining list). -/
def zeroOutFrom (ds : List ℕ) (j : ℕ) : List ℚ → List ℚ
  | [] => []
  | x :: xs => (if j ∈ ds then 0 else x) :: zeroOutFrom ds (j + 1) xs

/-- Embeds `Reporter.get_embedding_gate` restricted to the gate arithmetic: the probe
weight vector `w` for the task is read from the probe collaborator; the
dispatch on the task name is modelled separately (`get_embedding_gate_full`).
`dropParts = none` models `self._drop_parts = None`; `some 0` is falsy in
Python (`if self._drop_parts:`), so it also skips the dropping step. -/
def get_embedding_gate (w : List ℚ) (θ : ℚ) (dropParts : Option ℕ) (p : ℕ) :
    List ℚ :=
  let g := gateOfWeights w θ
  match dropParts with
  | none => g
  | some k =>
    if k = 0 then g
    else
      let dimNum : ℚ := g.sum
      let partStart : ℕ := ⌊dimNum * p / k⌋₊
      let partEnd : ℕ := ⌊dimNum * (p + 1) / k⌋₊
      let dimsToDrop := ((trueIndices g).drop partStart).take (partEnd - partStart)
      zeroOutFrom dimsToDrop 0 g

/-! ### Basic gate lemmas -/

theorem gateOfWeights_mem (w : List ℚ) (θ : ℚ) :
    ∀ x ∈ gateOfWeights w θ, x = 0 ∨ x = 1 := by
  intro x hx
  simp only [gateOfWeights, List.mem_map] at hx
  obtain ⟨a, -, ha⟩ := hx
  by_cases h : θ < |a| <;> simp [h] at ha <;> simp [← ha]

theorem zeroOutFrom_length (ds : List ℕ) (j : ℕ) (g : List ℚ) :
    (zeroOutFrom ds j g).length = g.length := by
  induction g generalizing j with
  | nil => rfl
  | cons x xs ih => simp [zeroOutFrom, ih]

theorem zeroOutFrom_getD (ds : List ℕ) (j : ℕ) (g : List ℚ) (i : ℕ) :
    (zeroOutFrom ds j g).getD i 0 =
      if j + i ∈ ds ∧ i < g.length then 0 else g.getD i 0 := by
  induction g generalizing j i with
  | nil => simp [zeroOutFrom]
  | cons x xs ih =>
    cases i with
    | zero => by_cases h : j ∈ ds <;> simp [zeroOutFrom, h]
    | succ i =>
      have := ih (j + 1) i
      simp only [zeroOutFrom, List.getD_cons_succ, List.length_cons]
      rw [this]
      have harith : j + 1 + i = j + (i + 1) := by omega
      by_cases h : j + (i + 1) ∈ ds <;> by_cases h2 : i < xs.length <;>
        simp [harith, h, h2, Nat.succ_lt_succ_iff]

theorem zeroOutFrom_mem (ds : List ℕ) (j : ℕ) (g : List ℚ) :
    ∀ x ∈ zeroOutFrom ds j g, x = 0 ∨ x ∈ g := by
  induction g generalizing j with
  | nil => simp [zeroOutFrom]
  | cons y ys ih =>
    intro x hx
    simp only [zeroOutFrom, List.mem_cons] at hx
    rcases hx with hx | hx
    · by_cases h : j ∈ ds
      · simp [h] at hx; exact Or.inl hx
      · simp [h] at hx; exact Or.inr (by simp [hx])
    · rcases ih (j + 1) x hx with h | h
      · exact Or.inl h
      · exact Or.inr (List.mem_cons_of_mem y h)

/-- Structural unfolding of `trueIndices` over a cons cell. -/
theorem trueIndices_cons (x : ℚ) (xs : List ℚ) :
    trueIndices (x :: xs) =
      (if x ≠ 0 then [0] else []) ++ (trueIndices xs).map Nat.succ := by
  unfold trueIndices
  rw [List.length_cons, List.range_succ_eq_map, List.filter_cons, List.filter_map]
  have hcomp : ((fun j => decide ((x :: xs).getD j 0 ≠ 0)) ∘ Nat.succ)
      = fun j => decide (xs.getD j 0 ≠ 0) := by
    funext j
    simp [List.getD_cons_succ]
  rw [hcomp]
  by_cases h : x ≠ 0 <;> simp [h]

theorem trueIndices_nodup (g : List ℚ) : (trueIndices g).Nodup :=
  (List.nodup_range _).filter _

theorem mem_trueIndices (g : List ℚ) (j : ℕ) :
    j ∈ trueIndices g ↔ j < g.length ∧ g.getD j 0 ≠ 0 := by
  simp [trueIndices, List.mem_filter, List.mem_range]

/-- For a 0/1 gate, `np.sum(gate)` equals the number of true indices. -/
theorem sum_eq_trueIndices_length (g : List ℚ) (hg : ∀ x ∈ g, x = 0 ∨ x = 1) :
    g.sum = ((trueIndices g).length : ℚ) := by
  induction g with
  | nil => simp [trueIndices]
  | cons x xs ih =>
    have hx := hg x (List.mem_cons_self x xs)
    have hxs := fun y hy => hg y (List.mem_cons_of_mem x hy)
    rw [List.sum_cons, trueIndices_cons, ih hxs]
    rcases hx with h | h <;> simp [h, add_comm]

/-- Membership in a Python slice `l[s:e]`, phrased through positions. -/
theorem mem_slice_iff (l : List ℕ) (s t x : ℕ) :
    x ∈ (l.drop s).take t ↔ ∃ i, s ≤ i ∧ i < s + t ∧ l[i]? = some x := by
  constructor
  · intro hx
    obtain ⟨n, hn⟩ := List.mem_iff_getElem?.mp hx
    have hnt : n < t := by
      by_contra hc
      rw [List.getElem?_eq_none] at hn
      · exact Option.noConfusion hn
      · exact le_trans (List.length_take_le t _) (Nat.le_of_not_lt hc)
    rw [List.getElem?_take_of_lt hnt, List.getElem?_drop] at hn
    exact ⟨s + n, Nat.le_add_right s n, by omega, hn⟩
  · rintro ⟨i, hsi, hit, hget⟩
    have hn : i - s < t := by omega
    apply List.mem_iff_getElem?.mpr
    refine ⟨i - s, ?_⟩
    rw [List.getElem?_take_of_lt hn, List.getElem?_drop]
    rwa [show s + (i - s) = i by omega]

theorem getElem?_mem_of_some {l : List ℕ} {n a : ℕ} (h : l[n]? = some a) : a ∈ l := by
  have hn : n < l.length := by
    by_contra hc
    rw [List.getElem?_eq_none (Nat.le_of_not_lt hc)] at h
    exact Option.noConfusion h
  rw [List.getElem?_eq_getElem hn] at h
  exact (Option.some.inj h) ▸ List.getElem_mem hn

/-! ### The `drop_parts` interval partition

Positions `0 ≤ i < T` are partitioned by `p ↦ [⌊T*p/k⌋, ⌊T*(p+1)/k⌋)` for
`p = 0, …, k-1`. -/

theorem div_interval_mem_iff (T k p i : ℕ) (hk : 0 < k) :
    (T * p / k ≤ i ∧ i < T * (p + 1) / k) ↔
      (T * p < (i + 1) * k ∧ (i + 1) * k ≤ T * (p + 1)) := by
  constructor
  · rintro ⟨h1, h2⟩
    constructor
    · have : T * p / k < i + 1 := Nat.lt_succ_of_le h1
      exact (Nat.div_lt_iff_lt_mul hk).mp this
    · exact (Nat.le_div_iff_mul_le hk).mp (Nat.succ_le_of_lt h2)
  · rintro ⟨h1, h2⟩
    constructor
    · have : T * p / k < i + 1 := (Nat.div_lt_iff_lt_mul hk).mpr h1
      omega
    · have : i + 1 ≤ T * (p + 1) / k := (Nat.le_div_iff_mul_le hk).mpr h2
      omega

theorem div_interval_exists (T k i : ℕ) (hk : 0 < k) (hi : i < T) :
    ∃ p, p < k ∧ T * p / k ≤ i ∧ i < T * (p + 1) / k := by
  have hT : 0 < T := by omega
  obtain ⟨b, hb⟩ : ∃ b, b = (i + 1) * k := ⟨_, rfl⟩
  have hbpos : 0 < b := hb ▸ Nat.mul_pos (Nat.succ_pos i) hk
  have hbk : b ≤ T * k := hb ▸ Nat.mul_le_mul_right k (by omega)
  set q := (b - 1) / T with hq
  have h1 : T * q ≤ b - 1 := Nat.mul_div_le (b - 1) T
  have h4 : b - 1 < T * (q + 1) := by
    have h2 := Nat.div_add_mod (b - 1) T
    have h3 := Nat.mod_lt (b - 1) hT
    calc b - 1 = T * ((b - 1) / T) + (b - 1) % T := h2.symm
      _ < T * ((b - 1) / T) + T := Nat.add_lt_add_left h3 _
      _ = T * ((b - 1) / T + 1) := by ring
  refine ⟨q, ?_, ?_⟩
  · have h5 : T * q < T * k := by omega
    exact Nat.lt_of_mul_lt_mul_left h5
  · rw [div_interval_mem_iff _ _ _ _ hk, ← hb]
    omega

theorem div_interval_unique (T k p q i : ℕ)
    (hp : T * p / k ≤ i ∧ i < T * (p + 1) / k)
    (hq : T * q / k ≤ i ∧ i < T * (q + 1) / k) : p = q := by
  by_contra hne
  rcases Nat.lt_or_ge p q with h | h
  · have hle : T * (p + 1) ≤ T * q := Nat.mul_le_mul_left T (by omega)
    have : T * (p + 1) / k ≤ T * q / k := Nat.div_le_div_right hle
    omega
  · have hq' : q < p := by omega
    have hle : T * (q + 1) ≤ T * p := Nat.mul_le_mul_left T (by omega)
    have : T * (q + 1) / k ≤ T * p / k := Nat.div_le_div_right hle
    omega

theorem lt_length_of_getElem?_some {l : List ℕ} {n a : ℕ} (h : l[n]? = some a) :
    n < l.length := by
  by_contra hc
  rw [List.getElem?_eq_none (Nat.le_of_not_lt hc)] at h
  exact Option.noConfusion h

/-- Bridge `⌊(T * p : ℚ) / k⌋ = T * p / k` in `ℕ`: the float index arithmetic of
`get_embedding_gate` agrees with exact natural division. -/
theorem natFloor_mul_div (T p k : ℕ) :
    ⌊((T : ℚ) * (p : ℚ)) / (k : ℚ)⌋₊ = T * p / k := by
  rw [show ((T : ℚ) * (p : ℚ)) = ((T * p : ℕ) : ℚ) by push_cast; ring,
    Nat.floor_div_nat, Nat.floor_natCast]

/-- The contiguous slice `trueIndices[⌊T*p/k⌋ : ⌊T*(p+1)/k⌋]` of currently-true
indices that pass `p` of `drop_parts = k` zeroes (stated with exact natural
division; the claim theorem proves the source's float arithmetic reduces to
it). -/
def zeroedSlice (w : List ℚ) (θ : ℚ) (k p : ℕ) : List ℕ :=
  ((trueIndices (gateOfWeights w θ)).drop
      ((trueIndices (gateOfWeights w θ)).length * p / k)).take
    ((trueIndices (gateOfWeights w θ)).length * (p + 1) / k -
      (trueIndices (gateOfWeights w θ)).length * p / k)

theorem natFloor_mul_div_succ (T p k : ℕ) :
    ⌊((T : ℚ) * ((p : ℚ) + 1)) / (k : ℚ)⌋₊ = T * (p + 1) / k := by
  rw [show ((p : ℚ) + 1) = (((p + 1 : ℕ)) : ℚ) by push_cast; ring]
  exact natFloor_mul_div T (p + 1) k

theorem get_embedding_gate_eq_zeroOut (w : List ℚ) (θ : ℚ) (k p : ℕ)
    (hk : 0 < k) :
    get_embedding_gate w θ (some k) p =
      zeroOutFrom (zeroedSlice w θ k p) 0 (gateOfWeights w θ) := by
  have hsum := sum_eq_trueIndices_length (gateOfWeights w θ) (gateOfWeights_mem w θ)
  simp only [get_embedding_gate, zeroedSlice, if_neg (Nat.pos_iff_ne_zero.mp hk), hsum,
    natFloor_mul_div, natFloor_mul_div_succ]

theorem mem_zeroedSlice (w : List ℚ) (θ : ℚ) (k p j : ℕ) :
    j ∈ zeroedSlice w θ k p ↔
      ∃ i, (trueIndices (gateOfWeights w θ)).length * p / k ≤ i ∧
        i < (trueIndices (gateOfWeights w θ)).length * (p + 1) / k ∧
        (trueIndices (gateOfWeights w θ))[i]? = some j := by
  have hmono : (trueIndices (gateOfWeights w θ)).length * p / k ≤
      (trueIndices (gateOfWeights w θ)).length * (p + 1) / k :=
    Nat.div_le_div_right (Nat.mul_le_mul_left _ (by omega))
  rw [zeroedSlice, mem_slice_iff]
  constructor
  · rintro ⟨i, h1, h2, h3⟩
    exact ⟨i, h1, by omega, h3⟩
  · rintro ⟨i, h1, h2, h3⟩
    exact ⟨i, h1, by omega, h3⟩

/-- C4.  For every gate with `T` true dimensions and every active `drop_parts`
value `k`, `get_embedding_gate(task, p)` zeroes precisely the contiguous slice
of currently-true indices from `⌊T*p/k⌋` to `⌊T*(p+1)/k⌋`; over the passes
`p = 0 … k-1` the zeroed index sets are pairwise disjoint and their union is
the original set of true indices (each true index zeroed in exactly one pass);
the returned vector has the probe dimensionality as its length and every entry
is 0 or 1. -/
theorem C4_get_embedding_gate_drop_partition (w : List ℚ) (θ : ℚ) (k : ℕ)
    (hk : 0 < k) :
    (∀ p, get_embedding_gate w θ (some k) p =
        zeroOutFrom (zeroedSlice w θ k p) 0 (gateOfWeights w θ))
    ∧ (∀ p j, (get_embedding_gate w θ (some k) p).getD j 0 =
        if j ∈ zeroedSlice w θ k p then 0 else (gateOfWeights w θ).getD j 0)
    ∧ (∀ p q j, j ∈ zeroedSlice w θ k p → j ∈ zeroedSlice w θ k q → p = q)
    ∧ (∀ j, j ∈ trueIndices (gateOfWeights w θ) ↔
        ∃ p, p < k ∧ j ∈ zeroedSlice w θ k p)
    ∧ (∀ p, (get_embedding_gate w θ (some k) p).length = w.length)
    ∧ (∀ p x, x ∈ get_embedding_gate w θ (some k) p → x = 0 ∨ x = 1) := by
  refine ⟨fun p => get_embedding_gate_eq_zeroOut w θ k p hk, ?_, ?_, ?_, ?_, ?_⟩
  · intro p j
    rw [get_embedding_gate_eq_zeroOut w θ k p hk, zeroOutFrom_getD]
    by_cases hj : j ∈ zeroedSlice w θ k p
    · have hmem : j ∈ trueIndices (gateOfWeights w θ) := by
        obtain ⟨i, -, -, hi⟩ := (mem_zeroedSlice w θ k p j).mp hj
        exact getElem?_mem_of_some hi
      have hlt : j < (gateOfWeights w θ).length :=
        ((mem_trueIndices _ j).mp hmem).1
      simp [hj, hlt]
    · simp [hj]
  · intro p q j hp hq
    obtain ⟨ip, hp1, hp2, hp3⟩ := (mem_zeroedSlice w θ k p j).mp hp
    obtain ⟨iq, hq1, hq2, hq3⟩ := (mem_zeroedSlice w θ k q j).mp hq
    have hlen : ip < (trueIndices (gateOfWeights w θ)).length :=
      lt_length_of_getElem?_some hp3
    have hig : ip = iq :=
      List.getElem?_inj hlen (trueIndices_nodup _) (hp3.trans hq3.symm)
    exact div_interval_unique (trueIndices (gateOfWeights w θ)).length k p q ip
      ⟨hp1, hp2⟩ ⟨hig ▸ hq1, hig ▸ hq2⟩
  · intro j
    constructor
    · intro hj
      obtain ⟨i, hi⟩ := List.mem_iff_getElem?.mp hj
      have hlen : i < (trueIndices (gateOfWeights w θ)).length :=
        lt_length_of_getElem?_some hi
      obtain ⟨p, hpk, hp1, hp2⟩ :=
        div_interval_exists (trueIndices (gateOfWeights w θ)).length k i hk hlen
      exact ⟨p, hpk, (mem_zeroedSlice w θ k p j).mpr ⟨i, hp1, hp2, hi⟩⟩
    · rintro ⟨p, -, hp⟩
      obtain ⟨i, -, -, hi⟩ := (mem_zeroedSlice w θ k p j).mp hp
      exact getElem?_mem_of_some hi
  · intro p
    rw [get_embedding_gate_eq_zeroOut w θ k p hk, zeroOutFrom_length]
    simp [gateOfWeights]
  · intro p x hx
    rw [get_embedding_gate_eq_zeroOut w θ k p hk] at hx
    rcases zeroOutFrom_mem _ _ _ x hx with h | h
    · exact Or.inl h
    · exact gateOfWeights_mem w θ x h

/-- Witness for C4 at a concrete input: weights `[2, 3, 0, 5, 7]`, threshold 1
(so 4 true dimensions) and `drop_parts = 2`. -/
theorem C4_get_embedding_gate_drop_partition_witness :
    (∀ p, get_embedding_gate [2, 3, 0, 5, 7] 1 (some 2) p =
        zeroOutFrom (zeroedSlice [2, 3, 0, 5, 7] 1 2 p) 0
          (gateOfWeights [2, 3, 0, 5, 7] 1))
    ∧ (∀ p j, (get_embedding_gate [2, 3, 0, 5, 7] 1 (some 2) p).getD j 0 =
        if j ∈ zeroedSlice [2, 3, 0, 5, 7] 1 2 p then 0
        else (gateOfWeights [2, 3, 0, 5, 7] 1).getD j 0)
    ∧ (∀ p q j, j ∈ zeroedSlice [2, 3, 0, 5, 7] 1 2 p →
        j ∈ zeroedSlice [2, 3, 0, 5, 7] 1 2 q → p = q)
    ∧ (∀ j, j ∈ trueIndices (gateOfWeights [2, 3, 0, 5, 7] 1) ↔
        ∃ p, p < 2 ∧ j ∈ zeroedSlice [2, 3, 0, 5, 7] 1 2 p)
    ∧ (∀ p, (get_embedding_gate [2, 3, 0, 5, 7] 1 (some 2) p).length =
        [2, 3, 0, 5, 7].length)
    ∧ (∀ p x, x ∈ get_embedding_gate [2, 3, 0, 5, 7] 1 (some 2) p →
        x = 0 ∨ x = 1) :=
  C4_get_embedding_gate_drop_partition [2, 3, 0, 5, 7] 1 2 (by decide)

/-! ## Python-level error model and task-name dispatch

`reporter.py` dispatches on `'distance' in task` / `'depth' in task`
(substring containment).  Errors that the reporting code can raise are
modelled explicitly:
* `valueErrorUnrecognizedTask`: `raise ValueError("Unrecognized task, …")`
  (predict, line 74);
* `unboundLocalError`: in `get_embedding_gate` an unknown task name skips both
  assignments to `diagonal_probe`, so line 30 raises `UnboundLocalError`;
* `typeErrorRaisedStr`: `raise f"No such correlation metric …"` raises a
  `TypeError` in Python 3 because a `str` is not a `BaseException`;
* `typeErrorMetricClassCall`: calling the stored metric *class* with an
  observation triple (see `metricCall`). -/

inductive PyErr where
  | valueErrorUnrecognizedTask : PyErr
  | unboundLocalError : PyErr
  | typeErrorRaisedStr : PyErr
  | typeErrorMetricClassCall : PyErr
  deriving DecidableEq

/-- Does `l` start with `sub`? -/
def startsWithSub : List Char → List Char → Bool
  | _, [] => true
  | [], _ :: _ => false
  | c :: cs, d :: ds => c == d && startsWithSub cs ds

/-- Does `l` contain `sub` as a contiguous substring? -/
def containsSub (sub : List Char) : List Char → Bool
  | [] => startsWithSub [] sub
  | c :: cs => startsWithSub (c :: cs) sub || containsSub sub cs

/-- Python `sub in s` on strings. -/
def strContains (s sub : String) : Bool := containsSub sub.toList s.toList

/-- The per-task diagonal weight vectors read from the probe collaborator
(`self.network.distance_probe.DistanceProbe[task]` /
`self.network.depth_probe.DepthProbe[task]`). -/
structure ProbeWeights where
  distanceW : List ℚ
  depthW : List ℚ

/-- Embeds `Reporter.get_embedding_gate` with its task-name dispatch (lines 24-39):
an unknown task leaves `diagonal_probe` unassigned and line 30 raises
`UnboundLocalError`. -/
def get_embedding_gate_full (pw : ProbeWeights) (task : String) (θ : ℚ)
    (dp : Option ℕ) (p : ℕ) : Except PyErr (List ℚ) :=
  if strContains task "distance" then .ok (get_embedding_gate pw.distanceW θ dp p)
  else if strContains task "depth" then .ok (get_embedding_gate pw.depthW θ dp p)
  else .error .unboundLocalError

/-- Python truthiness of `self._probe_threshold` (`None` and `0.0` are falsy). -/
def truthyOpt (θ : Option ℚ) : Bool :=
  match θ with
  | none => false
  | some v => v ≠ 0

/-! ## `Reporter.predict` (reporter.py lines 41-75)

The external data pipeline and the probe's `predict_on_batch` are black-box
collaborators; the per-sentence slicing only shapes the yielded payload, so the
payload of a successful yield is abstracted by `distanceYield`/`depthYield`.
What is embedded faithfully is the generator's control flow: the pass/batch
loops, the gate computation when gating is truthy, the task dispatch, and which
error (if any) stops the generator before anything is yielded. -/

structure PredictEnv (β γ : Type) where
  batches : List β
  distanceYield : ℕ → β → γ
  depthYield : ℕ → β → γ

/-- Body of `predict`'s inner loop for one `(part_to_drop, batch)` pair. -/
def predictBatch {β γ : Type} (pw : ProbeWeights) (θ : Option ℚ)
    (dp : Option ℕ) (task : String) (env : PredictEnv β γ) (p : ℕ) (b : β) :
    Except PyErr γ :=
  let gateRes : Except PyErr (Option (List ℚ)) :=
    if truthyOpt θ then (get_embedding_gate_full pw task (θ.getD 0) dp p).map some
    else .ok none
  match gateRes with
  | .error e => .error e
  | .ok _ =>
    if strContains task "distance" then .ok (env.distanceYield p b)
    else if strContains task "depth" then .ok (env.depthYield p b)
    else .error .valueErrorUnrecognizedTask

/-- Embeds `validation_steps = self._drop_parts or 1`. -/
def validationSteps (dp : Option ℕ) : ℕ :=
  match dp with
  | none => 1
  | some k => if k = 0 then 1 else k

/-- All `(part_to_drop, batch)` pairs in generator order. -/
def partBatchPairs {β : Type} (steps : ℕ) (batches : List β) : List (ℕ × β) :=
  ((List.range steps).map (fun p => batches.map (fun b => (p, b)))).flatten

/-- Run a generator body over the pairs: the yielded values before the first
raised error, and that error if one occurs. -/
def runYields {β γ : Type} (f : ℕ → β → Except PyErr γ) :
    List (ℕ × β) → List γ × Option PyErr
  | [] => ([], none)
  | (p, b) :: rest =>
    match f p b with
    | .error e => ([], some e)
    | .ok y =>
      let r := runYields f rest
      (y :: r.1, r.2)

/-- Embeds `Reporter.predict` as a generator run: yielded tuples plus the error that
stopped it, if any. -/
def predictRun {β γ : Type} (pw : ProbeWeights) (θ : Option ℚ) (dp : Option ℕ)
    (task : String) (env : PredictEnv β γ) : List γ × Option PyErr :=
  runYields (predictBatch pw θ dp task env)
    (partBatchPairs (validationSteps dp) env.batches)

theorem partBatchPairs_pos {β : Type} (steps : ℕ) (h : 0 < steps) (b : β)
    (bs : List β) :
    ∃ rest, partBatchPairs steps (b :: bs) = (0, b) :: rest := by
  obtain ⟨m, rfl⟩ : ∃ m, steps = m + 1 := ⟨steps - 1, by omega⟩
  rw [partBatchPairs, List.range_succ_eq_map, List.map_cons, List.flatten_cons,
    List.map_cons, List.cons_append]
  exact ⟨_, rfl⟩

theorem runYields_cons_error {β γ : Type} (f : ℕ → β → Except PyErr γ)
    (p : ℕ) (b : β) (rest : List (ℕ × β)) (e : PyErr) (h : f p b = .error e) :
    runYields f ((p, b) :: rest) = ([], some e) := by
  unfold runYields
  rw [h]

theorem validationSteps_pos (dp : Option ℕ) : 0 < validationSteps dp := by
  cases dp with
  | none => simp [validationSteps]
  | some k =>
    by_cases hk : k = 0
    · simp [validationSteps, hk]
    · simp only [validationSteps, if_neg hk]
      omega

/-- C6 (amended).  For a task name containing neither `distance` nor `depth`,
`predict` stops with an error before yielding any tuple (and before any output
I/O, of which `predict` performs none): the unrecognized-task `ValueError`
when gating is inactive, but an `UnboundLocalError` from
`get_embedding_gate` when gating (`probe_threshold`) is truthy. -/
theorem C6_predict_unrecognized_task {β γ : Type} (pw : ProbeWeights)
    (θ : Option ℚ) (dp : Option ℕ) (task : String) (env : PredictEnv β γ)
    (hd : strContains task "distance" = false)
    (hh : strContains task "depth" = false)
    (hb : env.batches ≠ []) :
    predictRun pw θ dp task env =
      ([], some (if truthyOpt θ then PyErr.unboundLocalError
                 else PyErr.valueErrorUnrecognizedTask)) := by
  obtain ⟨b, bs, hbs⟩ : ∃ b bs, env.batches = b :: bs := by
    cases hbsE : env.batches with
    | nil => exact absurd hbsE hb
    | cons b bs => exact ⟨b, bs, rfl⟩
  obtain ⟨rest, hrest⟩ := partBatchPairs_pos _ (validationSteps_pos dp) b bs
  have hbatch : predictBatch pw θ dp task env 0 b =
      .error (if truthyOpt θ then PyErr.unboundLocalError
              else PyErr.valueErrorUnrecognizedTask) := by
    unfold predictBatch get_embedding_gate_full
    by_cases ht : truthyOpt θ <;> simp [ht, hd, hh, Except.map]
  rw [predictRun, hbs, hrest, runYields_cons_error _ _ _ _ _ hbatch]

/-- A one-batch trivial environment for concrete evaluations. -/
def unitEnv : PredictEnv Unit Unit :=
  ⟨[()], fun _ _ => (), fun _ _ => ()⟩

/-- C6 counterexample to the claim as stated: with gating active
(`probe_threshold` truthy), the task name `"foo"` makes `predict` raise
`UnboundLocalError` inside `get_embedding_gate`, not the unrecognized-task
`ValueError` the claim promises. -/
theorem C6_counterexample_gating_error_kind :
    predictRun ⟨[], []⟩ (some 1) none "foo" unitEnv =
      ([], some PyErr.unboundLocalError)
    ∧ PyErr.unboundLocalError ≠ PyErr.valueErrorUnrecognizedTask := by
  constructor
  · rfl
  · intro h
    exact PyErr.noConfusion h

/-- Witness for C6 at a concrete input. -/
theorem C6_predict_unrecognized_task_witness :
    predictRun ⟨[], []⟩ (some 1) none "foo" unitEnv =
      ([], some (if truthyOpt (some 1) then PyErr.unboundLocalError
                 else PyErr.valueErrorUnrecognizedTask)) :=
  C6_predict_unrecognized_task ⟨[], []⟩ (some 1) none "foo" unitEnv
    (by decide) (by decide) (by decide)

/-! ## `CorrelationReporter.__init__` (reporter.py lines 80-94) -/

inductive CorrelationMetricKind where
  | spearman : CorrelationMetricKind
  | pearson : CorrelationMetricKind
  | kendall : CorrelationMetricKind
  deriving DecidableEq

/-- Python `str.lower()` (characterwise, which is what it does on the ASCII
metric names involved here). -/
def strToLower (s : String) : String :=
  String.mk (s.toList.map Char.toLower)

/-- The constructor's correlation-kind dispatch: `args.correlation.lower()`
selects the metric; anything else executes `raise f"No such correlation
metric found: …"`, which in Python 3 raises a `TypeError` (a `str` is not an
exception) — still an error at construction time, before any computation. -/
def correlationReporterInit (correlation : String) :
    Except PyErr CorrelationMetricKind :=
  if strToLower correlation = "spearman" then .ok .spearman
  else if strToLower correlation = "pearson" then .ok .pearson
  else if strToLower correlation = "kendall" then .ok .kendall
  else .error .typeErrorRaisedStr

/-- C7.  Constructing a `CorrelationReporter` with a correlation kind whose
lowercase form is not one of `spearman`, `pearson`, `kendall` errors during
construction (before any computation: construction here is a separate step
that must succeed before `compute` can run); the three supported kinds are
accepted case-insensitively and select the corresponding metric. -/
theorem C7_correlation_kind_checked_at_construction :
    (∀ s : String, strToLower s ≠ "spearman" → strToLower s ≠ "pearson" →
      strToLower s ≠ "kendall" →
      correlationReporterInit s = .error .typeErrorRaisedStr)
    ∧ (∀ s : String, strToLower s = "spearman" →
      correlationReporterInit s = .ok .spearman)
    ∧ (∀ s : String, strToLower s = "pearson" →
      correlationReporterInit s = .ok .pearson)
    ∧ (∀ s : String, strToLower s = "kendall" →
      correlationReporterInit s = .ok .kendall) := by
  refine ⟨?_, ?_, ?_, ?_⟩
  · intro s h1 h2 h3
    simp [correlationReporterInit, h1, h2, h3]
  · intro s h1
    simp [correlationReporterInit, h1]
  · intro s h1
    simp [correlationReporterInit, h1]
  · intro s h1
    simp [correlationReporterInit, h1]

/-- Witness for C7: a case-mixed supported kind and an unknown kind. -/
theorem C7_correlation_kind_witness :
    correlationReporterInit "SpEARman" = .ok .spearman
    ∧ correlationReporterInit "cosine" = .error .typeErrorRaisedStr :=
  ⟨C7_correlation_kind_checked_at_construction.2.1 "SpEARman" (by decide),
   C7_correlation_kind_checked_at_construction.1 "cosine"
     (by decide) (by decide) (by decide)⟩

/-! ## `CorrelationReporter.compute` / `write` (reporter.py lines 96-122)

The metrics module (`reporting/metrics.py`, providing `Spearman`, `Pearson`,
`Kendall`, `UAS`) is not part of the sources here; per the spec it provides
streaming accumulator classes: an instance is created once per
(language, task), fed every `(gold, predicted, mask)` batch triple through its
call, and finalized with `result()` giving a per-sentence-length bucket map.

`compute` (line 120) executes
`self.correlation_d[lang][task] = self.correlation_metric` — storing the
*class* itself (no parentheses, so no instance is constructed) — and then
calls the stored object with each batch triple (line 122), discarding the
call's value. -/

/-- A Python value that can sit in `correlation_d[lang][task]`: the metric
class object, or an accumulator instance holding the observations it has been
fed. -/
inductive MetricVal (Obs : Type) where
  | metricClass : MetricVal Obs
  | inst : List Obs → MetricVal Obs

/-- Modelled from the spec: calling the stored metric object with one batch
triple.  The metrics module is missing from the sources; the spec describes
its classes as streaming accumulators created once per (language, task) and
fed observations incrementally, so the accumulator constructor takes no
observation arguments.  Calling the *class* with a `(gold, predicted, mask)`
triple therefore mismatches the constructor signature and raises a
`TypeError`; calling an *instance* appends the observation to its state. -/
def metricCall {Obs : Type} : MetricVal Obs → Obs → Except PyErr (MetricVal Obs)
  | .metricClass, _ => .error .typeErrorMetricClassCall
  | .inst l, o => .ok (.inst (l ++ [o]))

/-- Embeds `correlation_d`, a nested dict keyed by language then task. -/
def CorrDict (Obs : Type) := String → String → Option (MetricVal Obs)

def dictUpdate {Obs : Type} (d : CorrDict Obs) (lang task : String)
    (v : MetricVal Obs) : CorrDict Obs :=
  fun l t => if l = lang ∧ t = task then some v else d l t

/-- Embeds `language.split('+')` (structural recursion over the characters, so that
concrete instances evaluate). -/
def splitPlusChars : List Char → List Char → List String
  | [], acc => [String.mk acc.reverse]
  | c :: cs, acc =>
    if c = '+' then String.mk acc.reverse :: splitPlusChars cs []
    else splitPlusChars cs (c :: acc)

def splitPlus (s : String) : List String := splitPlusChars s.toList []

/-- Embeds `CorrelationReporter.compute` (lines 115-122): for every language (groups
expanded on `'+'`) and task, line 120 assigns `self.correlation_metric` — the
class — into the dict, then for every batch triple from `predict` line 122
calls the stored object with the triple, discarding the result.  Errors
propagate as exceptions, aborting compute. -/
def correlationCompute {Obs : Type} (languages tasks : List String)
    (stream : String → String → List Obs) : Except PyErr (CorrDict Obs) :=
  languages.foldlM
    (fun d language =>
      (splitPlus language).foldlM
        (fun d lang =>
          tasks.foldlM
            (fun d task =>
              let d := dictUpdate d lang task .metricClass
              (stream lang task).foldlM
                (fun d obs =>
                  match d lang task with
                  | some m => (metricCall m obs).map (fun _ => d)
                  | none => .error .unboundLocalError)
                d)
            d)
        d)
    (fun _ _ => none)

/-- C1 (code bug).  `compute` never creates an accumulator instance: with any
observation present the very first call of the stored metric *class* with a
batch triple raises a `TypeError`, so no accumulator receives the observation
stream; and even with an empty stream what is stored for the (language, task)
pair is the class object itself, holding no per-length statistics. -/
theorem C1_compute_stores_class_not_instance :
    correlationCompute ["en"] ["dep_distance"] (fun _ _ => [(0 : ℕ)]) =
      .error .typeErrorMetricClassCall
    ∧ ∃ d : CorrDict ℕ,
        correlationCompute ["en"] ["dep_distance"] (fun _ _ => ([] : List ℕ)) =
          .ok d
        ∧ d "en" "dep_distance" = some MetricVal.metricClass := by
  exact ⟨rfl, ⟨_, rfl, rfl⟩⟩

/-! ## `CorrelationReporter.write`, mean over buckets (reporter.py lines 111-113)

Per language/task, line 112 computes
`np.nanmean(np.fromiter(result().values(), dtype=float))`: the mean of the
per-length-bucket values with every NaN bucket excluded.  Bucket values are
`Option ℚ`, `none` standing for NaN (undefined correlation: zero variance or
too small a bucket). -/

/-- Embeds `np.nanmean` over a vector of possibly-NaN values: the arithmetic mean of
the non-NaN entries, NaN (`none`) if there are none. -/
def nanmean (vs : List (Option ℚ)) : Option ℚ :=
  let fin := vs.filterMap id
  if fin.length = 0 then none else some (fin.sum / fin.length)

/-- The mean-of-buckets value written by `write` for one language/task, as a
function of that pair's `result()` bucket values. -/
def writeSpearmanMean (bucketVals : List (Option ℚ)) : Option ℚ :=
  nanmean bucketVals

/-- The specification-side arithmetic mean of a list of defined values. -/
def arithMean (l : List ℚ) : Option ℚ :=
  if l.length = 0 then none else some (l.sum / l.length)

/-- C8.  The written mean-of-buckets equals the arithmetic mean of the
non-NaN bucket values only: NaN buckets are excluded (dropping them changes
nothing), and on buckets that are all defined it is the plain arithmetic
mean. -/
theorem C8_write_mean_excludes_nan_buckets :
    (∀ vs : List (Option ℚ), writeSpearmanMean vs = arithMean (vs.filterMap id))
    ∧ (∀ vs : List (Option ℚ),
        writeSpearmanMean (vs.filter Option.isSome) = writeSpearmanMean vs)
    ∧ (∀ l : List ℚ, l ≠ [] →
        writeSpearmanMean (l.map some) = some (l.sum / l.length)) := by
  refine ⟨fun vs => rfl, ?_, ?_⟩
  · intro vs
    have h : (vs.filter Option.isSome).filterMap id = vs.filterMap id := by
      induction vs with
      | nil => rfl
      | cons v vt ih => cases v <;> simp [ih]
    show nanmean (vs.filter Option.isSome) = nanmean vs
    unfold nanmean
    rw [h]
  · intro l hl
    show nanmean (l.map some) = some (l.sum / l.length)
    unfold nanmean
    have h1 : (l.map some).filterMap id = l := by
      simp [List.filterMap_map]
    rw [h1, if_neg (by simpa using hl)]

/-- Witness for C8 at a concrete bucket list. -/
theorem C8_write_mean_excludes_nan_buckets_witness :
    writeSpearmanMean (([3, 5] : List ℚ).map some) =
      some (([3, 5] : List ℚ).sum / ([3, 5] : List ℚ).length) :=
  C8_write_mean_excludes_nan_buckets.2.2 [3, 5] (by decide)

/-! ## `SelectedDimensionalityReporter.compute` (reporter.py lines 266-275)

Per language, a `tasks × tasks` integer matrix: the outer loop stores each
task's gate (`selected_dims[task_idx] = self.get_embedding_gate(task)`), the
inner loop over `task_jdx in range(task_idx+1)` computes
`dims_n = tf.math.reduce_sum(gate_i * gate_j)` and writes it to both `[i, j]`
and `[j, i]`.  The gates do not depend on the language, so one matrix is
modelled. -/

/-- Embeds `tf.math.reduce_sum(g * h)` (elementwise product, summed). -/
def dotSum (g h : List ℚ) : ℚ := (List.zipWith (fun a b => a * b) g h).sum

/-- Embeds `.numpy().astype(int)` on the (integral) reduced sum. -/
def dimsN (g h : List ℚ) : ℤ := ⌊dotSum g h⌋

def DimMat : Type := ℕ → ℕ → ℤ

/-- Embeds the write `matrix[a, b] = v`. -/
def mset (M : DimMat) (a b : ℕ) (v : ℤ) : DimMat :=
  fun x y => if x = a ∧ y = b then v else M x y

/-- Embeds `for task_jdx in range(task_idx+1): …` — writes both `[i, j]` and
`[j, i]`. -/
def innerLoop (gates : List (List ℚ)) (i : ℕ) : ℕ → DimMat → DimMat
  | 0, M => M
  | j + 1, M =>
    mset
      (mset (innerLoop gates i j M) i j (dimsN (gates.getD i []) (gates.getD j [])))
      j i (dimsN (gates.getD i []) (gates.getD j []))

/-- Embeds `for task_idx, task in enumerate(self._tasks): …`. -/
def outerLoop (gates : List (List ℚ)) : ℕ → DimMat → DimMat
  | 0, M => M
  | i + 1, M => innerLoop gates i (i + 1) (outerLoop gates i M)

/-- Embeds `SelectedDimensionalityReporter.compute` for one language, starting from
`np.zeros((len(tasks), len(tasks)), dtype=int)`; `gates` is the list of
per-task embedding gates. -/
def selectedDimCompute (gates : List (List ℚ)) : DimMat :=
  outerLoop gates gates.length (fun _ _ => 0)

/-- The number of dimensions where both gates are simultaneously 1. -/
def overlapCount (g h : List ℚ) : ℕ :=
  ((List.zipWith (fun a b => (a, b)) g h).filter
    (fun q => q.1 = 1 ∧ q.2 = 1)).length

theorem innerLoop_get (gates : List (List ℚ)) (i m : ℕ) (M : DimMat) (x y : ℕ) :
    innerLoop gates i m M x y =
      if x = i ∧ y < m then dimsN (gates.getD i []) (gates.getD y [])
      else if y = i ∧ x < m then dimsN (gates.getD i []) (gates.getD x [])
      else M x y := by
  induction m generalizing x y with
  | zero => simp [innerLoop]
  | succ m ih =>
    simp only [innerLoop, mset]
    rw [ih]
    have hval : ∀ t s : ℕ, t = s →
        dimsN (gates.getD i []) (gates.getD t []) =
          dimsN (gates.getD i []) (gates.getD s []) := by
      intro t s h
      rw [h]
    split_ifs <;>
      first
        | rfl
        | omega
        | (apply hval; omega)

theorem outerLoop_get (gates : List (List ℚ)) (n : ℕ) (M : DimMat) (x y : ℕ) :
    outerLoop gates n M x y =
      if x < n ∧ y ≤ x then dimsN (gates.getD x []) (gates.getD y [])
      else if y < n ∧ x ≤ y then dimsN (gates.getD y []) (gates.getD x [])
      else M x y := by
  induction n generalizing x y with
  | zero => simp [outerLoop]
  | succ n ih =>
    simp only [outerLoop]
    rw [innerLoop_get, ih]
    have hval : ∀ t s u v : ℕ, t = s → u = v →
        dimsN (gates.getD t []) (gates.getD u []) =
          dimsN (gates.getD s []) (gates.getD v []) := by
      intro t s u v h1 h2
      rw [h1, h2]
    split_ifs <;>
      first
        | rfl
        | omega
        | (apply hval <;> omega)

theorem dotSum_comm (g h : List ℚ) : dotSum g h = dotSum h g := by
  unfold dotSum
  rw [List.zipWith_comm_of_comm _ (fun a b => mul_comm a b)]

theorem dimsN_comm (g h : List ℚ) : dimsN g h = dimsN h g := by
  unfold dimsN
  rw [dotSum_comm]

theorem dotSum_eq_overlapCount (g : List ℚ)
    (hg : ∀ x ∈ g, x = 0 ∨ x = 1) :
    ∀ h : List ℚ, (∀ x ∈ h, x = 0 ∨ x = 1) →
      dotSum g h = (overlapCount g h : ℚ) := by
  induction g with
  | nil =>
    intro h _
    simp [dotSum, overlapCount]
  | cons a as ih =>
    intro h hh
    cases h with
    | nil => simp [dotSum, overlapCount]
    | cons b bs =>
      have ha := hg a (List.mem_cons_self a as)
      have hb := hh b (List.mem_cons_self b bs)
      have has := fun x hx => hg x (List.mem_cons_of_mem a hx)
      have hbs := fun x hx => hh x (List.mem_cons_of_mem b hx)
      have ihb := ih has bs hbs
      simp only [dotSum, overlapCount, List.zipWith_cons_cons, List.sum_cons,
        List.filter_cons] at ihb ⊢
      rcases ha with ha | ha <;> rcases hb with hb | hb <;> subst ha <;> subst hb <;>
        simp_all [add_comm]

theorem dimsN_eq_overlapCount (g h : List ℚ)
    (hg : ∀ x ∈ g, x = 0 ∨ x = 1) (hh : ∀ x ∈ h, x = 0 ∨ x = 1) :
    dimsN g h = (overlapCount g h : ℤ) := by
  unfold dimsN
  rw [dotSum_eq_overlapCount g hg h hh]
  exact_mod_cast Int.floor_natCast _

theorem overlapCount_self (g : List ℚ) (hg : ∀ x ∈ g, x = 0 ∨ x = 1) :
    overlapCount g g = (trueIndices g).length := by
  induction g with
  | nil => simp [overlapCount, trueIndices]
  | cons a as ih =>
    have ha := hg a (List.mem_cons_self a as)
    have has := fun x hx => hg x (List.mem_cons_of_mem a hx)
    rw [trueIndices_cons]
    simp only [overlapCount, List.zipWith_cons_cons, List.filter_cons] at ih ⊢
    rcases ha with ha | ha <;> subst ha <;> simp_all [ih]

theorem getD_entries_01 (gates : List (List ℚ))
    (hg : ∀ g ∈ gates, ∀ x ∈ g, x = 0 ∨ x = 1) (i : ℕ) :
    ∀ x ∈ gates.getD i [], x = 0 ∨ x = 1 := by
  by_cases h : i < gates.length
  · rw [List.getD_eq_getElem _ _ h]
    exact hg _ (List.getElem_mem h)
  · rw [List.getD_eq_default _ _ (Nat.le_of_not_lt h)]
    intro x hx
    exact absurd hx (List.not_mem_nil x)

/-- C5.  For gates built by `get_embedding_gate` from the per-task probe
weights, the matrix stored by `SelectedDimensionalityReporter.compute` is
symmetric, its `[i, j]` entry counts the dimensions where task `i`'s and task
`j`'s gates are simultaneously 1, and its diagonal entry `[i, i]` is the
true-count of task `i`'s own gate. -/
theorem C5_selected_dimensionality_matrix (ws : List (List ℚ)) (θ : ℚ) :
    ∀ gates, gates = ws.map (fun w => gateOfWeights w θ) →
      (∀ i j, i < gates.length → j < gates.length →
        selectedDimCompute gates i j =
          (overlapCount (gates.getD i []) (gates.getD j []) : ℤ))
      ∧ (∀ i j, selectedDimCompute gates i j = selectedDimCompute gates j i)
      ∧ (∀ i, i < gates.length →
        selectedDimCompute gates i i =
          ((trueIndices (gates.getD i [])).length : ℤ)) := by
  intro gates hgateseq
  have hg : ∀ g ∈ gates, ∀ x ∈ g, x = 0 ∨ x = 1 := by
    intro g hgm
    rw [hgateseq] at hgm
    obtain ⟨w, -, rfl⟩ := List.mem_map.mp hgm
    exact gateOfWeights_mem w θ
  have h01 := getD_entries_01 gates hg
  refine ⟨?_, ?_, ?_⟩
  · intro i j hi hj
    rw [selectedDimCompute, outerLoop_get]
    by_cases hij : j ≤ i
    · rw [if_pos ⟨hi, hij⟩]
      exact dimsN_eq_overlapCount _ _ (h01 i) (h01 j)
    · rw [if_neg (by omega), if_pos ⟨hj, by omega⟩, dimsN_comm]
      exact dimsN_eq_overlapCount _ _ (h01 i) (h01 j)
  · intro i j
    rw [selectedDimCompute, outerLoop_get, outerLoop_get]
    have hval : ∀ t s u v : ℕ, t = s → u = v →
        dimsN (gates.getD t []) (gates.getD u []) =
          dimsN (gates.getD s []) (gates.getD v []) := by
      intro t s u v h1 h2
      rw [h1, h2]
    split_ifs <;>
      first
        | rfl
        | omega
        | (apply hval <;> omega)
  · intro i hi
    rw [selectedDimCompute, outerLoop_get, if_pos ⟨hi, Nat.le_refl i⟩,
      dimsN_eq_overlapCount _ _ (h01 i) (h01 i), overlapCount_self _ (h01 i)]

/-- Witness for C5 at concrete weights: gates `[1,1,0,0]` and `[1,0,0,1]`
(from weights `[2,3,0,0]`, `[5,0,0,2]`, threshold 1). -/
theorem C5_selected_dimensionality_matrix_witness :
    selectedDimCompute ([[2, 3, 0, 0], [5, 0, 0, 2]].map
        (fun w => gateOfWeights w (1 : ℚ))) 0 1 =
      (overlapCount
        (([[2, 3, 0, 0], [5, 0, 0, 2]].map
          (fun w => gateOfWeights w (1 : ℚ))).getD 0 [])
        (([[2, 3, 0, 0], [5, 0, 0, 2]].map
          (fun w => gateOfWeights w (1 : ℚ))).getD 1 []) : ℤ)
    ∧ selectedDimCompute ([[2, 3, 0, 0], [5, 0, 0, 2]].map
        (fun w => gateOfWeights w (1 : ℚ))) 0 0 =
      ((trueIndices (([[2, 3, 0, 0], [5, 0, 0, 2]].map
        (fun w => gateOfWeights w (1 : ℚ))).getD 0 [])).length : ℤ) :=
  ⟨(C5_selected_dimensionality_matrix [[2, 3, 0, 0], [5, 0, 0, 2]] 1 _ rfl).1
      0 1 (by decide) (by decide),
   (C5_selected_dimensionality_matrix [[2, 3, 0, 0], [5, 0, 0, 2]] 1 _ rfl).2.2
      0 (by decide)⟩

/-! ## `UASReporter.undirected_tree` (reporter.py lines 150-169)

The masking loop sets to `np.inf` every entry with a punctuation row or
column and the redundant lower half `i > j`; the result is handed to
`scipy.sparse.csgraph.minimum_spanning_tree`, whose dense-input conversion
treats `0`, `inf` and `nan` entries as *absent* edges (its documented
`null_value=0`, `infinity_null=True`, `nan_null=True` semantics) and computes
a minimum spanning forest of the remaining weighted edges by Kruskal's
greedy procedure (sorted edges, union-find).  Tree edges are returned 1-based
as `(col + 1, row + 1)`. -/

/-- One matrix cell after the masking loop (`none` = `np.inf`). -/
def maskedEntry (M : ℕ → ℕ → ℚ) (pm : ℕ → Bool) (i j : ℕ) : Option ℚ :=
  if pm i ∨ pm j then none
  else if j < i then none
  else some (M i j)

/-- The edges scipy's dense-to-sparse conversion keeps: finite *nonzero*
cells, with their (row, col, weight). -/
def graphEdges (n : ℕ) (M : ℕ → ℕ → ℚ) (pm : ℕ → Bool) : List (ℕ × ℕ × ℚ) :=
  ((List.range n).map (fun i =>
    (List.range n).filterMap (fun j =>
      match maskedEntry M pm i j with
      | some w => if w = 0 then none else some (i, j, w)
      | none => none))).flatten

/-- The claim's reading of the kept graph: every *finite* cell is an edge,
zero-valued cells included. -/
def finiteEntryEdges (n : ℕ) (M : ℕ → ℕ → ℚ) (pm : ℕ → Bool) :
    List (ℕ × ℕ × ℚ) :=
  ((List.range n).map (fun i =>
    (List.range n).filterMap (fun j =>
      match maskedEntry M pm i j with
      | some w => some (i, j, w)
      | none => none))).flatten

def insertByWeight (e : ℕ × ℕ × ℚ) : List (ℕ × ℕ × ℚ) → List (ℕ × ℕ × ℚ)
  | [] => [e]
  | f :: fs => if e.2.2 ≤ f.2.2 then e :: f :: fs else f :: insertByWeight e fs

/-- Edges in nondecreasing weight order (Kruskal's processing order). -/
def sortByWeight : List (ℕ × ℕ × ℚ) → List (ℕ × ℕ × ℚ)
  | [] => []
  | e :: es => insertByWeight e (sortByWeight es)

/-- Kruskal over a processing list, with the union-find kept as an idempotent
representative map: returns the forest edges and the final map. -/
def kruskalRun (r : ℕ → ℕ) : List (ℕ × ℕ × ℚ) → List (ℕ × ℕ × ℚ) × (ℕ → ℕ)
  | [] => ([], r)
  | (i, j, w) :: es =>
    if r i = r j then kruskalRun r es
    else
      let res := kruskalRun (fun x => if r x = r i then r j else r x) es
      ((i, j, w) :: res.1, res.2)

/-- Embeds `scipy.sparse.csgraph.minimum_spanning_tree` on the masked dense matrix:
the forest edges, in the matrix's (row, col) orientation. -/
def minimum_spanning_tree (n : ℕ) (M : ℕ → ℕ → ℚ) (pm : ℕ → Bool) :
    List (ℕ × ℕ × ℚ) :=
  (kruskalRun id (sortByWeight (graphEdges n M pm))).1

/-- Embeds `UASReporter.undirected_tree`: masks predicted and gold matrices, runs the
minimum spanning tree on each, and converts tree cells to 1-based
`(col + 1, row + 1)` pairs. -/
def undirected_tree (n : ℕ) (Mp Mg : ℕ → ℕ → ℚ) (pm : ℕ → Bool) :
    List (ℕ × ℕ) × List (ℕ × ℕ) :=
  ((minimum_spanning_tree n Mp pm).map (fun e => (e.2.1 + 1, e.1 + 1)),
   (minimum_spanning_tree n Mg pm).map (fun e => (e.2.1 + 1, e.1 + 1)))

/-! ### Graph connectivity apparatus -/

/-- Two nodes are adjacent when some listed edge joins them (in either
orientation). -/
def adjRel (E : List (ℕ × ℕ × ℚ)) (x y : ℕ) : Prop :=
  ∃ w, (x, y, w) ∈ E ∨ (y, x, w) ∈ E

/-- Connectivity: the reflexive-transitive closure of adjacency. -/
def Reach (E : List (ℕ × ℕ × ℚ)) : ℕ → ℕ → Prop :=
  Relation.ReflTransGen (adjRel E)

/-- Nodes incident to at least one edge. -/
def connectedNodes (n : ℕ) (E : List (ℕ × ℕ × ℚ)) : Finset ℕ :=
  (Finset.range n).filter (fun x => ∃ e ∈ E, x = e.1 ∨ x = e.2.1)

theorem mem_graphEdges (n : ℕ) (M : ℕ → ℕ → ℚ) (pm : ℕ → Bool)
    (i j : ℕ) (w : ℚ) :
    (i, j, w) ∈ graphEdges n M pm ↔
      i < n ∧ j < n ∧ maskedEntry M pm i j = some w ∧ w ≠ 0 := by
  unfold graphEdges
  rw [List.mem_flatten]
  constructor
  · rintro ⟨l, hl, hmem⟩
    obtain ⟨a, ha, rfl⟩ := List.mem_map.mp hl
    obtain ⟨b, hb, hfil⟩ := List.mem_filterMap.mp hmem
    rcases hcase : maskedEntry M pm a b with _ | w2
    · rw [hcase] at hfil
      exact absurd hfil (by simp)
    · rw [hcase] at hfil
      dsimp only at hfil
      by_cases hz : w2 = 0
      · rw [if_pos hz] at hfil
        exact absurd hfil (by simp)
      · rw [if_neg hz] at hfil
        simp only [Option.some.injEq, Prod.mk.injEq] at hfil
        obtain ⟨rfl, rfl, rfl⟩ := hfil
        exact ⟨List.mem_range.mp ha, List.mem_range.mp hb, hcase, hz⟩
  · rintro ⟨hi, hj, hmask, hz⟩
    refine ⟨(List.range n).filterMap (fun j =>
      match maskedEntry M pm i j with
      | some w => if w = 0 then none else some (i, j, w)
      | none => none), List.mem_map.mpr ⟨i, List.mem_range.mpr hi, rfl⟩, ?_⟩
    apply List.mem_filterMap.mpr
    refine ⟨j, List.mem_range.mpr hj, ?_⟩
    rw [hmask]
    dsimp only
    rw [if_neg hz]

theorem mem_finiteEntryEdges (n : ℕ) (M : ℕ → ℕ → ℚ) (pm : ℕ → Bool)
    (i j : ℕ) (w : ℚ) :
    (i, j, w) ∈ finiteEntryEdges n M pm ↔
      i < n ∧ j < n ∧ maskedEntry M pm i j = some w := by
  unfold finiteEntryEdges
  rw [List.mem_flatten]
  constructor
  · rintro ⟨l, hl, hmem⟩
    obtain ⟨a, ha, rfl⟩ := List.mem_map.mp hl
    obtain ⟨b, hb, hfil⟩ := List.mem_filterMap.mp hmem
    rcases hcase : maskedEntry M pm a b with _ | w2
    · rw [hcase] at hfil
      exact absurd hfil (by simp)
    · rw [hcase] at hfil
      dsimp only at hfil
      simp only [Option.some.injEq, Prod.mk.injEq] at hfil
      obtain ⟨rfl, rfl, rfl⟩ := hfil
      exact ⟨List.mem_range.mp ha, List.mem_range.mp hb, hcase⟩
  · rintro ⟨hi, hj, hmask⟩
    refine ⟨(List.range n).filterMap (fun j =>
      match maskedEntry M pm i j with
      | some w => some (i, j, w)
      | none => none), List.mem_map.mpr ⟨i, List.mem_range.mpr hi, rfl⟩, ?_⟩
    apply List.mem_filterMap.mpr
    refine ⟨j, List.mem_range.mpr hj, ?_⟩
    rw [hmask]

theorem mem_insertByWeight (e f : ℕ × ℕ × ℚ) (l : List (ℕ × ℕ × ℚ)) :
    f ∈ insertByWeight e l ↔ f = e ∨ f ∈ l := by
  induction l with
  | nil => simp [insertByWeight]
  | cons g gs ih =>
    unfold insertByWeight
    by_cases h : e.2.2 ≤ g.2.2
    · simp [h]
    · simp only [if_neg h, List.mem_cons, ih]
      tauto

theorem mem_sortByWeight (e : ℕ × ℕ × ℚ) (l : List (ℕ × ℕ × ℚ)) :
    e ∈ sortByWeight l ↔ e ∈ l := by
  induction l with
  | nil => simp [sortByWeight]
  | cons f fs ih =>
    unfold sortByWeight
    rw [mem_insertByWeight, ih, List.mem_cons]

theorem kruskalRun_subset (E : List (ℕ × ℕ × ℚ)) :
    ∀ (r : ℕ → ℕ) (e : ℕ × ℕ × ℚ), e ∈ (kruskalRun r E).1 → e ∈ E := by
  induction E with
  | nil => intro r e h; exact absurd h (by simp [kruskalRun])
  | cons f fs ih =>
    intro r e h
    obtain ⟨i, j, w⟩ := f
    unfold kruskalRun at h
    by_cases hr : r i = r j
    · rw [if_pos hr] at h
      exact List.mem_cons_of_mem _ (ih r e h)
    · rw [if_neg hr] at h
      rcases List.mem_cons.mp h with h | h
      · exact h ▸ List.mem_cons_self _ _
      · exact List.mem_cons_of_mem _ (ih _ e h)

/-! ### Union-find invariants -/

/-- One connectivity step available to the union-find state `r` while the
edges `E` remain to be processed: already-merged, or joined by a remaining
edge. -/
def ufStep (r : ℕ → ℕ) (E : List (ℕ × ℕ × ℚ)) (x y : ℕ) : Prop :=
  r x = r y ∨ adjRel E x y

def UConn (r : ℕ → ℕ) (E : List (ℕ × ℕ × ℚ)) : ℕ → ℕ → Prop :=
  Relation.ReflTransGen (ufStep r E)

theorem adjRel_cons (i j : ℕ) (w : ℚ) (es : List (ℕ × ℕ × ℚ)) (x y : ℕ) :
    adjRel ((i, j, w) :: es) x y ↔
      ((x = i ∧ y = j) ∨ (x = j ∧ y = i)) ∨ adjRel es x y := by
  unfold adjRel
  constructor
  · rintro ⟨v, hv | hv⟩
    · rcases List.mem_cons.mp hv with hv | hv
      · simp only [Prod.mk.injEq] at hv
        exact Or.inl (Or.inl ⟨hv.1, hv.2.1⟩)
      · exact Or.inr ⟨v, Or.inl hv⟩
    · rcases List.mem_cons.mp hv with hv | hv
      · simp only [Prod.mk.injEq] at hv
        exact Or.inl (Or.inr ⟨hv.2.1, hv.1⟩)
      · exact Or.inr ⟨v, Or.inr hv⟩
  · rintro ((⟨rfl, rfl⟩ | ⟨rfl, rfl⟩) | ⟨v, hv⟩)
    · exact ⟨w, Or.inl (List.mem_cons_self _ _)⟩
    · exact ⟨w, Or.inr (List.mem_cons_self _ _)⟩
    · rcases hv with hv | hv
      · exact ⟨v, Or.inl (List.mem_cons_of_mem _ hv)⟩
      · exact ⟨v, Or.inr (List.mem_cons_of_mem _ hv)⟩

theorem adjRel_symm (E : List (ℕ × ℕ × ℚ)) (x y : ℕ) (h : adjRel E x y) :
    adjRel E y x := by
  obtain ⟨w, hw | hw⟩ := h
  · exact ⟨w, Or.inr hw⟩
  · exact ⟨w, Or.inl hw⟩

theorem ufStep_symm (r : ℕ → ℕ) (E : List (ℕ × ℕ × ℚ)) (x y : ℕ)
    (h : ufStep r E x y) : ufStep r E y x := by
  rcases h with h | h
  · exact Or.inl h.symm
  · exact Or.inr (adjRel_symm E x y h)

theorem UConn_symm (r : ℕ → ℕ) (E : List (ℕ × ℕ × ℚ)) (x y : ℕ)
    (h : UConn r E x y) : UConn r E y x := by
  induction h with
  | refl => exact Relation.ReflTransGen.refl
  | tail _ hstep ih =>
    exact Relation.ReflTransGen.head (ufStep_symm r E _ _ hstep) ih

/-- With no edges left, the union-find closure collapses to root equality. -/
theorem UConn_nil (r : ℕ → ℕ) (x y : ℕ) :
    UConn r [] x y ↔ r x = r y := by
  constructor
  · intro h
    induction h with
    | refl => rfl
    | tail _ hstep ih =>
      rcases hstep with h | h
      · exact ih.trans h
      · obtain ⟨w, hw | hw⟩ := h <;> exact absurd hw (List.not_mem_nil _)
  · intro h
    exact Relation.ReflTransGen.single (Or.inl h)

theorem union_root_eq (r : ℕ → ℕ) (i j a b : ℕ) :
    ((if r a = r i then r j else r a) = (if r b = r i then r j else r b)) ↔
      (r a = r b ∨ (r a = r i ∧ r b = r j) ∨ (r a = r j ∧ r b = r i)) := by
  by_cases ha : r a = r i <;> by_cases hb : r b = r i
  · simp only [if_pos ha, if_pos hb]
    constructor
    · intro _
      exact Or.inl (ha.trans hb.symm)
    · intro _
      trivial
  · simp only [if_pos ha, if_neg hb]
    constructor
    · intro h
      exact Or.inr (Or.inl ⟨ha, h.symm⟩)
    · rintro (h | ⟨h1, h2⟩ | ⟨h1, h2⟩)
      · exact absurd (h.symm.trans ha) hb
      · exact h2.symm
      · exact absurd h2 hb
  · simp only [if_neg ha, if_pos hb]
    constructor
    · intro h
      exact Or.inr (Or.inr ⟨h, hb⟩)
    · rintro (h | ⟨h1, h2⟩ | ⟨h1, h2⟩)
      · exact absurd (h.trans hb) ha
      · exact absurd h1 ha
      · exact h1
  · simp only [if_neg ha, if_neg hb]
    constructor
    · intro h
      exact Or.inl h
    · rintro (h | ⟨h1, h2⟩ | ⟨h1, h2⟩)
      · exact h
      · exact absurd h1 ha
      · exact absurd h2 hb

theorem union_root_idem (r : ℕ → ℕ) (hr : ∀ x, r (r x) = r x) (i j : ℕ) :
    ∀ x, (if r (if r x = r i then r j else r x) = r i then r j
          else r (if r x = r i then r j else r x)) =
        (if r x = r i then r j else r x) := by
  intro x
  by_cases hx : r x = r i
  · simp only [if_pos hx, hr j]
    by_cases hj : r j = r i <;> simp [hj]
  · simp only [if_neg hx, hr x, if_neg hx]

theorem kruskalRun_cons_skip (r : ℕ → ℕ) (i j : ℕ) (w : ℚ)
    (es : List (ℕ × ℕ × ℚ)) (h : r i = r j) :
    kruskalRun r ((i, j, w) :: es) = kruskalRun r es := by
  conv_lhs => rw [kruskalRun]
  rw [if_pos h]

theorem kruskalRun_cons_union (r : ℕ → ℕ) (i j : ℕ) (w : ℚ)
    (es : List (ℕ × ℕ × ℚ)) (h : ¬ r i = r j) :
    kruskalRun r ((i, j, w) :: es) =
      ((i, j, w) :: (kruskalRun (fun x => if r x = r i then r j else r x) es).1,
       (kruskalRun (fun x => if r x = r i then r j else r x) es).2) := by
  conv_lhs => rw [kruskalRun]
  rw [if_neg h]

theorem UConn_skip (r : ℕ → ℕ) (i j : ℕ) (w : ℚ) (es : List (ℕ × ℕ × ℚ))
    (h : r i = r j) (x y : ℕ) :
    UConn r ((i, j, w) :: es) x y ↔ UConn r es x y := by
  constructor
  · intro hc
    induction hc with
    | refl => exact Relation.ReflTransGen.refl
    | tail _ hstep ih =>
      refine ih.trans ?_
      rcases hstep with hs | hs
      · exact Relation.ReflTransGen.single (Or.inl hs)
      · rcases (adjRel_cons i j w es _ _).mp hs with (⟨rfl, rfl⟩ | ⟨rfl, rfl⟩) | hs
        · exact Relation.ReflTransGen.single (Or.inl h)
        · exact Relation.ReflTransGen.single (Or.inl h.symm)
        · exact Relation.ReflTransGen.single (Or.inr hs)
  · intro hc
    refine Relation.ReflTransGen.mono ?_ hc
    intro a b hs
    rcases hs with hs | hs
    · exact Or.inl hs
    · exact Or.inr ((adjRel_cons i j w es a b).mpr (Or.inr hs))

theorem UConn_union (r : ℕ → ℕ) (i j : ℕ) (w : ℚ) (es : List (ℕ × ℕ × ℚ))
    (hne : ¬ r i = r j) (x y : ℕ) :
    UConn (fun x => if r x = r i then r j else r x) es x y ↔
      UConn r ((i, j, w) :: es) x y := by
  constructor
  · intro hc
    induction hc with
    | refl => exact Relation.ReflTransGen.refl
    | tail _ hstep ih =>
      refine ih.trans ?_
      rcases hstep with hs | hs
      · rcases (union_root_eq r i j _ _).mp hs with h1 | ⟨h1, h2⟩ | ⟨h1, h2⟩
        · exact Relation.ReflTransGen.single (Or.inl h1)
        · refine Relation.ReflTransGen.head (Or.inl h1) ?_
          refine Relation.ReflTransGen.head
            (Or.inr ((adjRel_cons i j w es i j).mpr (Or.inl (Or.inl ⟨rfl, rfl⟩)))) ?_
          exact Relation.ReflTransGen.single (Or.inl h2.symm)
        · refine Relation.ReflTransGen.head (Or.inl h1) ?_
          refine Relation.ReflTransGen.head
            (Or.inr ((adjRel_cons i j w es j i).mpr (Or.inl (Or.inr ⟨rfl, rfl⟩)))) ?_
          exact Relation.ReflTransGen.single (Or.inl h2.symm)
      · exact Relation.ReflTransGen.single
          (Or.inr ((adjRel_cons i j w es _ _).mpr (Or.inr hs)))
  · intro hc
    induction hc with
    | refl => exact Relation.ReflTransGen.refl
    | tail _ hstep ih =>
      refine ih.trans ?_
      rcases hstep with hs | hs
      · refine Relation.ReflTransGen.single (Or.inl ?_)
        simp only [hs]
      · rcases (adjRel_cons i j w es _ _).mp hs with (⟨rfl, rfl⟩ | ⟨rfl, rfl⟩) | hs
        · refine Relation.ReflTransGen.single (Or.inl ?_)
          simp
        · refine Relation.ReflTransGen.single (Or.inl ?_)
          simp
        · exact Relation.ReflTransGen.single (Or.inr hs)

theorem kruskalRun_root_iff (E : List (ℕ × ℕ × ℚ)) :
    ∀ (r : ℕ → ℕ), (∀ x, r (r x) = r x) →
      ∀ x y, ((kruskalRun r E).2 x = (kruskalRun r E).2 y ↔ UConn r E x y) := by
  induction E with
  | nil =>
    intro r _ x y
    simp only [kruskalRun]
    exact (UConn_nil r x y).symm
  | cons e es ih =>
    obtain ⟨i, j, w⟩ := e
    intro r hr x y
    by_cases hrij : r i = r j
    · rw [kruskalRun_cons_skip r i j w es hrij, ih r hr x y,
        UConn_skip r i j w es hrij]
    · rw [kruskalRun_cons_union r i j w es hrij]
      exact (ih _ (union_root_idem r hr i j) x y).trans
        (UConn_union r i j w es hrij x y)

theorem kruskalRun_count (n : ℕ) :
    ∀ (E : List (ℕ × ℕ × ℚ)), (∀ e ∈ E, e.1 < n ∧ e.2.1 < n) →
      ∀ r : ℕ → ℕ,
        (kruskalRun r E).1.length +
          ((Finset.range n).image (kruskalRun r E).2).card =
          ((Finset.range n).image r).card := by
  intro E
  induction E with
  | nil =>
    intro _ r
    simp [kruskalRun]
  | cons e es ih =>
    obtain ⟨i, j, w⟩ := e
    intro hE r
    have hi : i < n := (hE _ (List.mem_cons_self _ _)).1
    have hj : j < n := (hE _ (List.mem_cons_self _ _)).2
    have hEes := fun e he => hE e (List.mem_cons_of_mem _ he)
    by_cases hrij : r i = r j
    · rw [kruskalRun_cons_skip r i j w es hrij]
      exact ih hEes r
    · rw [kruskalRun_cons_union r i j w es hrij]
      simp only [List.length_cons]
      have himage : (Finset.range n).image (fun x => if r x = r i then r j else r x)
          = ((Finset.range n).image r).erase (r i) := by
        ext v
        simp only [Finset.mem_image, Finset.mem_erase, Finset.mem_range]
        constructor
        · rintro ⟨x, hx, hv⟩
          by_cases hxi : r x = r i
          · rw [if_pos hxi] at hv
            refine ⟨?_, j, hj, hv⟩
            intro hc
            exact hrij (hc ▸ hv).symm
          · rw [if_neg hxi] at hv
            refine ⟨?_, x, hx, hv⟩
            intro hc
            exact hxi (hv.trans hc)
        · rintro ⟨hvne, x, hx, hv⟩
          refine ⟨x, hx, ?_⟩
          rw [if_neg (fun hc => hvne (hv.symm.trans hc))]
          exact hv
      have hmem : r i ∈ (Finset.range n).image r :=
        Finset.mem_image.mpr ⟨i, Finset.mem_range.mpr hi, rfl⟩
      have hpos : 0 < ((Finset.range n).image r).card :=
        Finset.card_pos.mpr ⟨r i, hmem⟩
      have hcard := Finset.card_erase_of_mem hmem
      have hIH := ih hEes (fun x => if r x = r i then r j else r x)
      rw [himage] at hIH
      omega

theorem RTG_eq_or (R : ℕ → ℕ → Prop) (x y : ℕ) :
    Relation.ReflTransGen (fun a b => a = b ∨ R a b) x y ↔
      Relation.ReflTransGen R x y := by
  constructor
  · intro h
    induction h with
    | refl => exact Relation.ReflTransGen.refl
    | tail _ hstep ih =>
      rcases hstep with rfl | hstep
      · exact ih
      · exact ih.tail hstep
  · intro h
    exact Relation.ReflTransGen.mono (fun a b hb => Or.inr hb) h

theorem adjRel_of_mem_iff {E F : List (ℕ × ℕ × ℚ)}
    (h : ∀ e, e ∈ E ↔ e ∈ F) (x y : ℕ) : adjRel E x y ↔ adjRel F x y := by
  unfold adjRel
  constructor <;> rintro ⟨w, hw | hw⟩
  · exact ⟨w, Or.inl ((h _).mp hw)⟩
  · exact ⟨w, Or.inr ((h _).mp hw)⟩
  · exact ⟨w, Or.inl ((h _).mpr hw)⟩
  · exact ⟨w, Or.inr ((h _).mpr hw)⟩

theorem Reach_of_mem_iff {E F : List (ℕ × ℕ × ℚ)}
    (h : ∀ e, e ∈ E ↔ e ∈ F) (x y : ℕ) : Reach E x y ↔ Reach F x y := by
  unfold Reach
  constructor <;> intro hc
  · exact Relation.ReflTransGen.mono (fun a b => (adjRel_of_mem_iff h a b).mp) hc
  · exact Relation.ReflTransGen.mono (fun a b => (adjRel_of_mem_iff h a b).mpr) hc

theorem mem_connectedNodes (n : ℕ) (E : List (ℕ × ℕ × ℚ)) (x : ℕ) :
    x ∈ connectedNodes n E ↔ x < n ∧ ∃ e ∈ E, x = e.1 ∨ x = e.2.1 := by
  simp [connectedNodes]

theorem reach_eq_of_isolated {E : List (ℕ × ℕ × ℚ)} {x y : ℕ}
    (hiso : ∀ e ∈ E, x ≠ e.1 ∧ x ≠ e.2.1) (h : Reach E x y) : x = y := by
  rcases Relation.ReflTransGen.cases_head h with rfl | ⟨c, hstep, -⟩
  · rfl
  · obtain ⟨w, hw | hw⟩ := hstep
    · exact absurd rfl (hiso _ hw).1
    · exact absurd rfl (hiso _ hw).2

/-- The Kruskal forest over the kept graph has `(number of connected nodes) - 1`
edges whenever the connected nodes are mutually reachable and nonempty. -/
theorem mst_forest_size (n : ℕ) (M : ℕ → ℕ → ℚ) (pm : ℕ → Bool)
    (hconn : ∀ x ∈ connectedNodes n (graphEdges n M pm),
      ∀ y ∈ connectedNodes n (graphEdges n M pm),
      Reach (graphEdges n M pm) x y)
    (hne : (connectedNodes n (graphEdges n M pm)).Nonempty) :
    (minimum_spanning_tree n M pm).length + 1 =
      (connectedNodes n (graphEdges n M pm)).card := by
  have hmemiff : ∀ e, e ∈ sortByWeight (graphEdges n M pm) ↔ e ∈ graphEdges n M pm :=
    fun e => mem_sortByWeight e _
  have hEbound : ∀ e ∈ sortByWeight (graphEdges n M pm), e.1 < n ∧ e.2.1 < n := by
    intro e he
    obtain ⟨i, j, w⟩ := e
    have h2 := (mem_graphEdges n M pm i j w).mp ((hmemiff _).mp he)
    exact ⟨h2.1, h2.2.1⟩
  have hcount := kruskalRun_count n (sortByWeight (graphEdges n M pm)) hEbound id
  rw [Finset.image_id, Finset.card_range] at hcount
  have hiff : ∀ x y, (kruskalRun id (sortByWeight (graphEdges n M pm))).2 x =
      (kruskalRun id (sortByWeight (graphEdges n M pm))).2 y ↔
      Reach (graphEdges n M pm) x y := by
    intro x y
    rw [kruskalRun_root_iff _ id (fun _ => rfl) x y]
    have h1 : UConn id (sortByWeight (graphEdges n M pm)) x y ↔
        Reach (sortByWeight (graphEdges n M pm)) x y :=
      RTG_eq_or (adjRel (sortByWeight (graphEdges n M pm))) x y
    exact h1.trans (Reach_of_mem_iff hmemiff x y)
  obtain ⟨x0, hx0⟩ := hne
  have hTsub : connectedNodes n (graphEdges n M pm) ⊆ Finset.range n :=
    Finset.filter_subset _ _
  have hUT : (Finset.range n \ connectedNodes n (graphEdges n M pm)) ∪
      connectedNodes n (graphEdges n M pm) = Finset.range n :=
    Finset.sdiff_union_of_subset hTsub
  have hUiso : ∀ u ∈ Finset.range n \ connectedNodes n (graphEdges n M pm),
      ∀ e ∈ graphEdges n M pm, u ≠ e.1 ∧ u ≠ e.2.1 := by
    intro u hu e he
    have hun : u < n := Finset.mem_range.mp (Finset.mem_sdiff.mp hu).1
    have hnotT := (Finset.mem_sdiff.mp hu).2
    constructor <;> intro hc
    · exact hnotT ((mem_connectedNodes n _ u).mpr ⟨hun, e, he, Or.inl hc⟩)
    · exact hnotT ((mem_connectedNodes n _ u).mpr ⟨hun, e, he, Or.inr hc⟩)
  have himgT : (connectedNodes n (graphEdges n M pm)).image
      (kruskalRun id (sortByWeight (graphEdges n M pm))).2 =
      {(kruskalRun id (sortByWeight (graphEdges n M pm))).2 x0} := by
    apply Finset.eq_singleton_iff_unique_mem.mpr
    refine ⟨Finset.mem_image_of_mem _ hx0, ?_⟩
    intro v hv
    obtain ⟨t, ht, rfl⟩ := Finset.mem_image.mp hv
    exact (hiff t x0).mpr (hconn t ht x0 hx0)
  have hUinj : Set.InjOn (kruskalRun id (sortByWeight (graphEdges n M pm))).2
      ↑(Finset.range n \ connectedNodes n (graphEdges n M pm)) := by
    intro a ha b hb hab
    exact reach_eq_of_isolated (hUiso a (Finset.mem_coe.mp ha))
      ((hiff a b).mp hab)
  have himgU : ((Finset.range n \ connectedNodes n (graphEdges n M pm)).image
      (kruskalRun id (sortByWeight (graphEdges n M pm))).2).card =
      (Finset.range n \ connectedNodes n (graphEdges n M pm)).card :=
    Finset.card_image_of_injOn hUinj
  have hdisj : Disjoint
      ((Finset.range n \ connectedNodes n (graphEdges n M pm)).image
        (kruskalRun id (sortByWeight (graphEdges n M pm))).2)
      ((connectedNodes n (graphEdges n M pm)).image
        (kruskalRun id (sortByWeight (graphEdges n M pm))).2) := by
    rw [Finset.disjoint_left]
    intro v hvU hvT
    obtain ⟨u, hu, rfl⟩ := Finset.mem_image.mp hvU
    obtain ⟨t, ht, htv⟩ := Finset.mem_image.mp hvT
    have hut := reach_eq_of_isolated (hUiso u hu) ((hiff u t).mp htv.symm)
    exact (Finset.mem_sdiff.mp hu).2 (hut ▸ ht)
  have himage_split : (Finset.range n).image
      (kruskalRun id (sortByWeight (graphEdges n M pm))).2 =
      ((Finset.range n \ connectedNodes n (graphEdges n M pm)).image
        (kruskalRun id (sortByWeight (graphEdges n M pm))).2) ∪
      ((connectedNodes n (graphEdges n M pm)).image
        (kruskalRun id (sortByWeight (graphEdges n M pm))).2) := by
    rw [← Finset.image_union, hUT]
  have hcard2 : ((Finset.range n).image
      (kruskalRun id (sortByWeight (graphEdges n M pm))).2).card =
      (Finset.range n \ connectedNodes n (graphEdges n M pm)).card + 1 := by
    rw [himage_split, Finset.card_union_of_disjoint hdisj, himgU, himgT,
      Finset.card_singleton]
  have hUcard : (Finset.range n \ connectedNodes n (graphEdges n M pm)).card =
      n - (connectedNodes n (graphEdges n M pm)).card := by
    rw [Finset.card_sdiff hTsub, Finset.card_range]
  have hTn : (connectedNodes n (graphEdges n M pm)).card ≤ n :=
    le_trans (Finset.card_le_card hTsub) (le_of_eq (Finset.card_range n))
  have hT1 : 1 ≤ (connectedNodes n (graphEdges n M pm)).card :=
    Finset.card_pos.mpr ⟨x0, hx0⟩
  rw [minimum_spanning_tree]
  omega

theorem Reach_symm {E : List (ℕ × ℕ × ℚ)} {x y : ℕ} (h : Reach E x y) :
    Reach E y x := by
  induction h with
  | refl => exact Relation.ReflTransGen.refl
  | tail _ hstep ih =>
    exact Relation.ReflTransGen.head (adjRel_symm E _ _ hstep) ih

theorem mst_subset (n : ℕ) (M : ℕ → ℕ → ℚ) (pm : ℕ → Bool) :
    ∀ e ∈ minimum_spanning_tree n M pm, e ∈ graphEdges n M pm := by
  intro e he
  exact (mem_sortByWeight e _).mp (kruskalRun_subset _ id e he)

/-- C3 (amended).  Whenever the kept graph — punctuation rows/columns and the
lower half excluded, and *zero cells excluded as well* (scipy treats exact-0
entries as absent edges, see C9) — is connected over its incident nodes,
`undirected_tree` returns exactly `N - 1` edges, `N` the number of such nodes,
independently for the predicted and the gold matrix, every returned pair being
1-based. -/
theorem C3_undirected_tree_edge_count (n : ℕ) (Mp Mg : ℕ → ℕ → ℚ)
    (pm : ℕ → Bool)
    (hconnP : ∀ x ∈ connectedNodes n (graphEdges n Mp pm),
      ∀ y ∈ connectedNodes n (graphEdges n Mp pm),
      Reach (graphEdges n Mp pm) x y)
    (hneP : (connectedNodes n (graphEdges n Mp pm)).Nonempty)
    (hconnG : ∀ x ∈ connectedNodes n (graphEdges n Mg pm),
      ∀ y ∈ connectedNodes n (graphEdges n Mg pm),
      Reach (graphEdges n Mg pm) x y)
    (hneG : (connectedNodes n (graphEdges n Mg pm)).Nonempty) :
    (undirected_tree n Mp Mg pm).1.length + 1 =
      (connectedNodes n (graphEdges n Mp pm)).card
    ∧ (undirected_tree n Mp Mg pm).2.length + 1 =
      (connectedNodes n (graphEdges n Mg pm)).card
    ∧ (∀ p ∈ (undirected_tree n Mp Mg pm).1,
        1 ≤ p.1 ∧ p.1 ≤ n ∧ 1 ≤ p.2 ∧ p.2 ≤ n)
    ∧ (∀ p ∈ (undirected_tree n Mp Mg pm).2,
        1 ≤ p.1 ∧ p.1 ≤ n ∧ 1 ≤ p.2 ∧ p.2 ≤ n) := by
  have hb : ∀ (M : ℕ → ℕ → ℚ) (p : ℕ × ℕ),
      p ∈ (minimum_spanning_tree n M pm).map (fun e => (e.2.1 + 1, e.1 + 1)) →
      1 ≤ p.1 ∧ p.1 ≤ n ∧ 1 ≤ p.2 ∧ p.2 ≤ n := by
    intro M p hp
    obtain ⟨e, he, rfl⟩ := List.mem_map.mp hp
    obtain ⟨i, j, w⟩ := e
    have hm := (mem_graphEdges n M pm i j w).mp (mst_subset n M pm _ he)
    dsimp only
    exact ⟨by omega, by omega, by omega, by omega⟩
  refine ⟨?_, ?_, hb Mp, hb Mg⟩
  · show ((minimum_spanning_tree n Mp pm).map _).length + 1 = _
    rw [List.length_map]
    exact mst_forest_size n Mp pm hconnP hneP
  · show ((minimum_spanning_tree n Mg pm).map _).length + 1 = _
    rw [List.length_map]
    exact mst_forest_size n Mg pm hconnG hneG

/-- All-content (no punctuation) mask. -/
def pmFalse : ℕ → Bool := fun _ => false

/-- Two-token distance matrix with the single kept cell `(0,1) = 3`. -/
def ceM2 : ℕ → ℕ → ℚ := fun i j => if i = 0 ∧ j = 1 then 3 else 0

/-- Three-token symmetric distance matrix with `d(0,1) = d(0,2) = 0` and
`d(1,2) = 5`: every entry is finite, but the zero cells are dropped by
scipy's conversion. -/
def ceM3 : ℕ → ℕ → ℚ :=
  fun i j => if (i = 1 ∧ j = 2) ∨ (i = 2 ∧ j = 1) then 5 else 0

/-- Witness for C3 on a concrete connected 2-token sentence. -/
theorem C3_undirected_tree_edge_count_witness :
    (undirected_tree 2 ceM2 ceM2 pmFalse).1.length + 1 =
      (connectedNodes 2 (graphEdges 2 ceM2 pmFalse)).card
    ∧ (undirected_tree 2 ceM2 ceM2 pmFalse).2.length + 1 =
      (connectedNodes 2 (graphEdges 2 ceM2 pmFalse)).card
    ∧ (∀ p ∈ (undirected_tree 2 ceM2 ceM2 pmFalse).1,
        1 ≤ p.1 ∧ p.1 ≤ 2 ∧ 1 ≤ p.2 ∧ p.2 ≤ 2)
    ∧ (∀ p ∈ (undirected_tree 2 ceM2 ceM2 pmFalse).2,
        1 ≤ p.1 ∧ p.1 ≤ 2 ∧ 1 ≤ p.2 ∧ p.2 ≤ 2) := by
  have h01 : Reach (graphEdges 2 ceM2 pmFalse) 0 1 :=
    Relation.ReflTransGen.single ⟨3, Or.inl (by decide)⟩
  have hconn : ∀ x ∈ connectedNodes 2 (graphEdges 2 ceM2 pmFalse),
      ∀ y ∈ connectedNodes 2 (graphEdges 2 ceM2 pmFalse),
      Reach (graphEdges 2 ceM2 pmFalse) x y := by
    intro x hx y hy
    have hx2 : x < 2 := ((mem_connectedNodes _ _ _).mp hx).1
    have hy2 : y < 2 := ((mem_connectedNodes _ _ _).mp hy).1
    interval_cases x <;> interval_cases y <;>
      first
        | exact Relation.ReflTransGen.refl
        | exact h01
        | exact Reach_symm h01
  exact C3_undirected_tree_edge_count 2 ceM2 ceM2 pmFalse hconn
    ⟨0, by decide⟩ hconn ⟨0, by decide⟩

/-- C3 counterexample to the claim as stated: with all entries finite, the
finite-entry graph on the kept half is connected with 3 connected nodes
(`d(0,1) = d(0,2) = 0`, `d(1,2) = 5`), yet the decoded tree has 1 edge, not
`3 - 1 = 2` — the zero cells are dropped. -/
theorem C3_counterexample_finite_connectivity_not_enough :
    (∀ x ∈ connectedNodes 3 (finiteEntryEdges 3 ceM3 pmFalse),
      ∀ y ∈ connectedNodes 3 (finiteEntryEdges 3 ceM3 pmFalse),
      Reach (finiteEntryEdges 3 ceM3 pmFalse) x y)
    ∧ (connectedNodes 3 (finiteEntryEdges 3 ceM3 pmFalse)).card = 3
    ∧ (undirected_tree 3 ceM3 ceM3 pmFalse).1.length = 1
    ∧ (1 : ℕ) ≠ 3 - 1 := by
  have h01 : Reach (finiteEntryEdges 3 ceM3 pmFalse) 0 1 :=
    Relation.ReflTransGen.single ⟨0, Or.inl (by decide)⟩
  have h02 : Reach (finiteEntryEdges 3 ceM3 pmFalse) 0 2 :=
    Relation.ReflTransGen.single ⟨0, Or.inl (by decide)⟩
  have h12 : Reach (finiteEntryEdges 3 ceM3 pmFalse) 1 2 :=
    Relation.ReflTransGen.single ⟨5, Or.inl (by decide)⟩
  refine ⟨?_, by decide, by decide, by decide⟩
  intro x hx y hy
  have hx3 : x < 3 := ((mem_connectedNodes _ _ _).mp hx).1
  have hy3 : y < 3 := ((mem_connectedNodes _ _ _).mp hy).1
  interval_cases x <;> interval_cases y <;>
    first
      | exact Relation.ReflTransGen.refl
      | exact h01
      | exact h02
      | exact h12
      | exact Reach_symm h01
      | exact Reach_symm h02
      | exact Reach_symm h12

/-- C9.  A zero matrix cell is treated as an absent edge, never as a
zero-weight edge: every edge in the decoded minimum spanning tree has nonzero
weight, and on the all-finite matrix `ceM3` (zero off-diagonal distances
`d(0,1) = d(0,2) = 0`) the decoded edge set has fewer than `N - 1 = 2`
edges. -/
theorem C9_zero_cell_is_absent_edge :
    (∀ (n : ℕ) (M : ℕ → ℕ → ℚ) (pm : ℕ → Bool) (e : ℕ × ℕ × ℚ),
      e ∈ minimum_spanning_tree n M pm → e.2.2 ≠ 0)
    ∧ (undirected_tree 3 ceM3 ceM3 pmFalse).1.length < 3 - 1 := by
  constructor
  · intro n M pm e he
    obtain ⟨i, j, w⟩ := e
    exact ((mem_graphEdges n M pm i j w).mp (mst_subset n M pm _ he)).2.2.2
  · decide

/-- Witness for C9: the single decoded edge of the 2-token sentence has
nonzero weight. -/
theorem C9_zero_cell_is_absent_edge_witness :
    ((0 : ℕ), (1 : ℕ), (3 : ℚ)).2.2 ≠ 0 :=
  C9_zero_cell_is_absent_edge.1 2 ceM2 pmFalse (0, 1, 3) (by decide)

/-! ## `UASReporter.directed_tree` (reporter.py lines 171-210)

An `(N+1) × (N+1)` score matrix with the virtual root at index 0 is built
(NaN = `none` marks forbidden arcs): rows/columns `1…N` hold `-distance`
restricted to arcs from strictly deeper to strictly shallower non-punctuation
tokens; punctuation tokens and the token of minimal depth (`np.argmin`, which
takes the *first* index attaining the minimum, over all tokens punctuation
included) are wired to the root with score 0.  The matrix is passed to the
external `ufal.chu_liu_edmonds` C++ library; its contract (one head per token,
chosen among the non-NaN arcs) is a hypothesis of the theorems below.  Arcs
whose dependent is punctuation are discarded from the returned set. -/

/-- Embeds `np.argmin` over `f` restricted to `[0, n)`: the first index attaining
the minimum. -/
def argminIdx (f : ℕ → ℚ) (n : ℕ) : ℕ :=
  (List.range n).foldl (fun best i => if f i < f best then i else best) 0

theorem argminIdx_succ (f : ℕ → ℚ) (n : ℕ) :
    argminIdx f (n + 1) =
      if f n < f (argminIdx f n) then n else argminIdx f n := by
  unfold argminIdx
  rw [List.range_succ, List.foldl_append]
  rfl

theorem argminIdx_lt (f : ℕ → ℚ) (n : ℕ) (hn : 0 < n) : argminIdx f n < n := by
  induction n with
  | zero => omega
  | succ n ih =>
    rw [argminIdx_succ]
    by_cases h : f n < f (argminIdx f n)
    · rw [if_pos h]
      omega
    · rw [if_neg h]
      rcases Nat.eq_zero_or_pos n with rfl | hn2
      · show argminIdx f 0 < 1
        unfold argminIdx
        simp
      · exact Nat.lt_succ_of_lt (ih hn2)

theorem argminIdx_le (f : ℕ → ℚ) (n : ℕ) :
    ∀ i, i < n → f (argminIdx f n) ≤ f i := by
  induction n with
  | zero => omega
  | succ n ih =>
    intro i hi
    rw [argminIdx_succ]
    by_cases h : f n < f (argminIdx f n)
    · rw [if_pos h]
      rcases Nat.lt_succ_iff_lt_or_eq.mp hi with hi2 | rfl
      · exact le_of_lt (lt_of_lt_of_le h (ih i hi2))
      · exact le_refl _
    · rw [if_neg h]
      rcases Nat.lt_succ_iff_lt_or_eq.mp hi with hi2 | rfl
      · exact ih i hi2
      · exact le_of_not_lt h

theorem argminIdx_first (f : ℕ → ℚ) (n : ℕ) :
    ∀ i, i < argminIdx f n → f (argminIdx f n) < f i := by
  induction n with
  | zero =>
    unfold argminIdx
    simp
  | succ n ih =>
    intro i hi
    rw [argminIdx_succ] at hi ⊢
    by_cases h : f n < f (argminIdx f n)
    · rw [if_pos h] at hi ⊢
      rcases Nat.lt_or_ge i (argminIdx f n) with h2 | h2
      · exact lt_trans h (ih i h2)
      · exact lt_of_lt_of_le h (argminIdx_le f n i hi)
    · rw [if_neg h] at hi ⊢
      exact ih i hi

/-- The `(n+1) × (n+1)` score matrix of `directed_tree` for one of the two
(predicted/gold) decodings; `none` models NaN.  Cell `(r, c)` is the score of
the arc with dependent `r` and head `c` (virtual root at 0). -/
def scoreMatrix (n : ℕ) (dist : ℕ → ℕ → ℚ) (pm : ℕ → Bool) (depths : ℕ → ℚ) :
    ℕ → ℕ → Option ℚ :=
  fun r c =>
    if n + 1 ≤ r ∨ n + 1 ≤ c then none
    else if r = 0 then none
    else if c = 0 then
      (if pm (r - 1) ∨ r - 1 = argminIdx depths n then some 0 else none)
    else if pm (r - 1) ∨ pm (c - 1) then none
    else if depths (r - 1) ≤ depths (c - 1) then none
    else some (-(dist (r - 1) (c - 1)))

/-- The contract of the external `chu_liu_edmonds` call: for every token it
returns a head whose arc score is defined (non-NaN). -/
def headsValid (n : ℕ) (S : ℕ → ℕ → Option ℚ) (heads : ℕ → ℕ) : Prop :=
  ∀ d, 1 ≤ d → d ≤ n → S d (heads d) ≠ none

/-- The returned arc set: one `(dependent, head)` pair per non-punctuation
token (punctuation dependents are discarded), 1-based dependents. -/
def directedArcs (n : ℕ) (pm : ℕ → Bool) (heads : ℕ → ℕ) : List (ℕ × ℕ) :=
  ((List.range n).filter (fun i => ¬ pm i)).map (fun i => (i + 1, heads (i + 1)))

/-- Embeds `UASReporter.directed_tree`: the (predicted, gold) arc sets, given the
heads arrays returned by the external Chu-Liu-Edmonds call on the two score
matrices. -/
def directed_tree (n : ℕ) (distP distG : ℕ → ℕ → ℚ) (pm : ℕ → Bool)
    (depthsP depthsG : ℕ → ℚ) (headsP headsG : ℕ → ℕ) :
    List (ℕ × ℕ) × List (ℕ × ℕ) :=
  (directedArcs n pm headsP, directedArcs n pm headsG)

def countNonPunct (n : ℕ) (pm : ℕ → Bool) : ℕ :=
  ((List.range n).filter (fun i => ¬ pm i)).length

theorem directedArcs_spec (n : ℕ) (dist : ℕ → ℕ → ℚ) (pm : ℕ → Bool)
    (depths : ℕ → ℚ) (heads : ℕ → ℕ) (hn : 1 ≤ n)
    (h : headsValid n (scoreMatrix n dist pm depths) heads) :
    (directedArcs n pm heads).length = countNonPunct n pm
    ∧ (∀ a ∈ directedArcs n pm heads,
        (∃ i, i < n ∧ pm i = false ∧ a.1 = i + 1)
        ∧ (a.2 = 0 ∨ (1 ≤ a.2 ∧ a.2 ≤ n ∧ pm (a.2 - 1) = false)))
    ∧ heads (argminIdx depths n + 1) = 0
    ∧ (pm (argminIdx depths n) = false →
        (argminIdx depths n + 1, 0) ∈ directedArcs n pm heads) := by
  have hroot : heads (argminIdx depths n + 1) = 0 := by
    have hlt := argminIdx_lt depths n hn
    have hv := h (argminIdx depths n + 1) (by omega) (by omega)
    by_contra hc
    apply hv
    unfold scoreMatrix
    by_cases hb : n + 1 ≤ argminIdx depths n + 1 ∨
        n + 1 ≤ heads (argminIdx depths n + 1)
    · rw [if_pos hb]
    · rw [if_neg hb, if_neg (by omega), if_neg hc]
      have hcle : heads (argminIdx depths n + 1) - 1 < n := by omega
      by_cases hpm : pm (argminIdx depths n + 1 - 1) = true ∨
          pm (heads (argminIdx depths n + 1) - 1) = true
      · rw [if_pos hpm]
      · rw [if_neg hpm, if_pos ?_]
        have := argminIdx_le depths n (heads (argminIdx depths n + 1) - 1) hcle
        simpa using this
  refine ⟨by unfold directedArcs countNonPunct; rw [List.length_map], ?_, hroot, ?_⟩
  · intro a ha
    obtain ⟨i, hi, rfl⟩ := List.mem_map.mp ha
    have hmem := List.mem_filter.mp hi
    have hin : i < n := List.mem_range.mp hmem.1
    have hpm : pm i = false := by simpa using hmem.2
    refine ⟨⟨i, hin, hpm, rfl⟩, ?_⟩
    have hv := h (i + 1) (by omega) (by omega)
    dsimp only
    by_cases hc : heads (i + 1) = 0
    · exact Or.inl hc
    · right
      unfold scoreMatrix at hv
      by_cases hb : n + 1 ≤ i + 1 ∨ n + 1 ≤ heads (i + 1)
      · rw [if_pos hb] at hv
        exact absurd rfl hv
      · rw [if_neg hb, if_neg (by omega), if_neg hc] at hv
        by_cases hpm2 : pm (i + 1 - 1) = true ∨ pm (heads (i + 1) - 1) = true
        · rw [if_pos hpm2] at hv
          exact absurd rfl hv
        · push_neg at hpm2
          refine ⟨by omega, by omega, ?_⟩
          simpa using hpm2.2
  · intro hpm
    have hlt := argminIdx_lt depths n hn
    apply List.mem_map.mpr
    refine ⟨argminIdx depths n, ?_, by rw [hroot]⟩
    apply List.mem_filter.mpr
    exact ⟨List.mem_range.mpr hlt, by simp [hpm]⟩

/-- C2.  In directed mode, for any heads arrays satisfying the
Chu-Liu-Edmonds contract on the two score matrices: `directed_tree` returns
exactly one arc per non-punctuation token (so exactly N arcs for N
non-punctuation tokens); no returned arc has a punctuation dependent or a
punctuation head (heads are the virtual root 0 or 1-based non-punctuation
tokens); and the token attaining the minimal depth (argmin over predicted
depths for the predicted tree, over gold depths for the gold tree) is
assigned the virtual root as its head. -/
theorem C2_directed_tree_arcs (n : ℕ) (distP distG : ℕ → ℕ → ℚ)
    (pm : ℕ → Bool) (depthsP depthsG : ℕ → ℚ) (headsP headsG : ℕ → ℕ)
    (hn : 1 ≤ n)
    (hP : headsValid n (scoreMatrix n distP pm depthsP) headsP)
    (hG : headsValid n (scoreMatrix n distG pm depthsG) headsG) :
    ((directed_tree n distP distG pm depthsP depthsG headsP headsG).1.length =
        countNonPunct n pm
      ∧ (∀ a ∈ (directed_tree n distP distG pm depthsP depthsG headsP headsG).1,
          (∃ i, i < n ∧ pm i = false ∧ a.1 = i + 1)
          ∧ (a.2 = 0 ∨ (1 ≤ a.2 ∧ a.2 ≤ n ∧ pm (a.2 - 1) = false)))
      ∧ headsP (argminIdx depthsP n + 1) = 0
      ∧ (pm (argminIdx depthsP n) = false →
          (argminIdx depthsP n + 1, 0) ∈
            (directed_tree n distP distG pm depthsP depthsG headsP headsG).1))
    ∧ ((directed_tree n distP distG pm depthsP depthsG headsP headsG).2.length =
        countNonPunct n pm
      ∧ (∀ a ∈ (directed_tree n distP distG pm depthsP depthsG headsP headsG).2,
          (∃ i, i < n ∧ pm i = false ∧ a.1 = i + 1)
          ∧ (a.2 = 0 ∨ (1 ≤ a.2 ∧ a.2 ≤ n ∧ pm (a.2 - 1) = false)))
      ∧ headsG (argminIdx depthsG n + 1) = 0
      ∧ (pm (argminIdx depthsG n) = false →
          (argminIdx depthsG n + 1, 0) ∈
            (directed_tree n distP distG pm depthsP depthsG headsP headsG).2)) :=
  ⟨directedArcs_spec n distP pm depthsP headsP hn hP,
   directedArcs_spec n distG pm depthsG headsG hn hG⟩

/-- Two-token depths `[0, 1]`. -/
def ceDepths2 : ℕ → ℚ := fun i => if i = 0 then 0 else 1

/-- Heads array decoding the 2-token sentence: token 1 gets the root, token 2
hangs off token 1. -/
def ceHeads2 : ℕ → ℕ := fun d => if d = 1 then 0 else 1

theorem ceHeads2_valid :
    headsValid 2 (scoreMatrix 2 (fun _ _ => 1) pmFalse ceDepths2) ceHeads2 := by
  intro d h1 h2
  interval_cases d <;> decide

/-- Witness for C2 on the concrete 2-token sentence. -/
theorem C2_directed_tree_arcs_witness :
    ((directed_tree 2 (fun _ _ => 1) (fun _ _ => 1) pmFalse ceDepths2 ceDepths2
        ceHeads2 ceHeads2).1.length = countNonPunct 2 pmFalse
      ∧ (∀ a ∈ (directed_tree 2 (fun _ _ => 1) (fun _ _ => 1) pmFalse ceDepths2
          ceDepths2 ceHeads2 ceHeads2).1,
          (∃ i, i < 2 ∧ pmFalse i = false ∧ a.1 = i + 1)
          ∧ (a.2 = 0 ∨ (1 ≤ a.2 ∧ a.2 ≤ 2 ∧ pmFalse (a.2 - 1) = false)))
      ∧ ceHeads2 (argminIdx ceDepths2 2 + 1) = 0
      ∧ (pmFalse (argminIdx ceDepths2 2) = false →
          (argminIdx ceDepths2 2 + 1, 0) ∈
            (directed_tree 2 (fun _ _ => 1) (fun _ _ => 1) pmFalse ceDepths2
              ceDepths2 ceHeads2 ceHeads2).1))
    ∧ ((directed_tree 2 (fun _ _ => 1) (fun _ _ => 1) pmFalse ceDepths2 ceDepths2
        ceHeads2 ceHeads2).2.length = countNonPunct 2 pmFalse
      ∧ (∀ a ∈ (directed_tree 2 (fun _ _ => 1) (fun _ _ => 1) pmFalse ceDepths2
          ceDepths2 ceHeads2 ceHeads2).2,
          (∃ i, i < 2 ∧ pmFalse i = false ∧ a.1 = i + 1)
          ∧ (a.2 = 0 ∨ (1 ≤ a.2 ∧ a.2 ≤ 2 ∧ pmFalse (a.2 - 1) = false)))
      ∧ ceHeads2 (argminIdx ceDepths2 2 + 1) = 0
      ∧ (pmFalse (argminIdx ceDepths2 2) = false →
          (argminIdx ceDepths2 2 + 1, 0) ∈
            (directed_tree 2 (fun _ _ => 1) (fun _ _ => 1) pmFalse ceDepths2
              ceDepths2 ceHeads2 ceHeads2).2)) :=
  C2_directed_tree_arcs 2 (fun _ _ => 1) (fun _ _ => 1) pmFalse ceDepths2
    ceDepths2 ceHeads2 ceHeads2 (by omega) ceHeads2_valid ceHeads2_valid

/-- Punctuation mask marking token 0 as punctuation. -/
def pmHead : ℕ → Bool := fun i => i == 0

/-- Constant (all-zero) depths: every token attains the minimum. -/
def ceDepthsFlat : ℕ → ℚ := fun _ => 0

/-- C10 counterexample to the claim as stated: with depths `[0, 0, 0]` and
token 0 punctuation, the minimal depth is attained by the two non-punctuation
tokens 1 and 2, but the first of them (token 1) is *not* given a score-0 arc
to the virtual root: `np.argmin` runs over all tokens, punctuation included,
and selects token 0, so row 2 column 0 of the score matrix stays NaN. -/
theorem C10_counterexample_punct_argmin :
    pmHead 1 = false ∧ pmHead 2 = false
    ∧ ceDepthsFlat 1 = ceDepthsFlat 2
    ∧ (∀ i, i < 3 → ceDepthsFlat 1 ≤ ceDepthsFlat i)
    ∧ scoreMatrix 3 (fun _ _ => 1) pmHead ceDepthsFlat 2 0 = none := by
  refine ⟨rfl, rfl, rfl, ?_, by decide⟩
  intro i _
  exact le_refl _

/-- C10 (amended).  Provided the token selected by `np.argmin` (lowest index
attaining the minimal depth, punctuation included) is itself a
non-punctuation token: it is the lowest-index minimal-depth non-punctuation
token; among the minimal-depth non-punctuation tokens it is the only one
whose score-0 arc to the virtual root exists, and every other minimal-depth
non-punctuation token has an entirely-NaN score row (no candidate head at
all).  Conversely, when the depth minimum is unique (and its token
non-punctuation), every non-punctuation token has at least one candidate
head. -/
theorem C10_directed_root_arc (n : ℕ) (dist : ℕ → ℕ → ℚ) (pm : ℕ → Bool)
    (depths : ℕ → ℚ) (hn : 1 ≤ n)
    (hroot : pm (argminIdx depths n) = false) :
    (∀ t, t < n → pm t = false → depths t = depths (argminIdx depths n) →
      ((scoreMatrix n dist pm depths (t + 1) 0 = some 0 ↔
          t = argminIdx depths n)
        ∧ (t ≠ argminIdx depths n →
          ∀ c, scoreMatrix n dist pm depths (t + 1) c = none)))
    ∧ (∀ t, t < n → depths t = depths (argminIdx depths n) →
        argminIdx depths n ≤ t)
    ∧ ((∀ i, i < n → i ≠ argminIdx depths n →
          depths (argminIdx depths n) < depths i) →
        ∀ d, d < n → pm d = false →
          ∃ c, scoreMatrix n dist pm depths (d + 1) c ≠ none) := by
  refine ⟨?_, ?_, ?_⟩
  · intro t ht hpm hdep
    constructor
    · constructor
      · intro hs
        unfold scoreMatrix at hs
        rw [if_neg (by omega), if_neg (by omega)] at hs
        rw [if_pos rfl] at hs
        by_cases hc : pm (t + 1 - 1) = true ∨ t + 1 - 1 = argminIdx depths n
        · rcases hc with hc | hc
          · rw [show t + 1 - 1 = t from rfl, hpm] at hc
            exact absurd hc (by simp)
          · simpa using hc
        · rw [if_neg hc] at hs
          exact absurd hs (by simp)
      · intro hc
        unfold scoreMatrix
        rw [if_neg (by omega), if_neg (by omega), if_pos rfl,
          if_pos (Or.inr (by simpa using hc))]
    · intro hne c
      unfold scoreMatrix
      by_cases hb : n + 1 ≤ t + 1 ∨ n + 1 ≤ c
      · rw [if_pos hb]
      · rw [if_neg hb, if_neg (by omega)]
        by_cases hc0 : c = 0
        · rw [if_pos hc0]
          rw [if_neg ?_]
          show ¬ (pm (t + 1 - 1) = true ∨ t + 1 - 1 = argminIdx depths n)
          push_neg
          refine ⟨?_, ?_⟩
          · rw [show t + 1 - 1 = t from rfl, hpm]
            simp
          · rw [show t + 1 - 1 = t from rfl]
            exact hne
        · rw [if_neg hc0]
          by_cases hpm2 : pm (t + 1 - 1) = true ∨ pm (c - 1) = true
          · rw [if_pos hpm2]
          · rw [if_neg hpm2, if_pos ?_]
            rw [show t + 1 - 1 = t from rfl, hdep]
            exact argminIdx_le depths n (c - 1) (by omega)
  · intro t ht hdep
    by_contra hc
    have := argminIdx_first depths n t (by omega)
    rw [hdep] at this
    exact absurd this (lt_irrefl _)
  · intro huniq d hd hpm
    by_cases hda : d = argminIdx depths n
    · refine ⟨0, ?_⟩
      unfold scoreMatrix
      rw [if_neg (by omega), if_neg (by omega), if_pos rfl,
        if_pos (Or.inr (by simpa using hda))]
      simp
    · refine ⟨argminIdx depths n + 1, ?_⟩
      have hlt := argminIdx_lt depths n hn
      unfold scoreMatrix
      rw [if_neg (by omega), if_neg (by omega), if_neg (by omega)]
      rw [if_neg ?_, if_neg ?_]
      · simp
      · rw [show d + 1 - 1 = d from rfl,
          show argminIdx depths n + 1 - 1 = argminIdx depths n from rfl]
        exact not_le.mpr (huniq d hd hda)
      · rw [show d + 1 - 1 = d from rfl,
          show argminIdx depths n + 1 - 1 = argminIdx depths n from rfl]
        push_neg
        exact ⟨by simp [hpm], by simp [hroot]⟩

/-- Witness for C10: 2 tokens, no punctuation, constant depths (a tie). -/
theorem C10_directed_root_arc_witness :
    (∀ t, t < 2 → pmFalse t = false →
      ceDepthsFlat t = ceDepthsFlat (argminIdx ceDepthsFlat 2) →
      ((scoreMatrix 2 (fun _ _ => 1) pmFalse ceDepthsFlat (t + 1) 0 = some 0 ↔
          t = argminIdx ceDepthsFlat 2)
        ∧ (t ≠ argminIdx ceDepthsFlat 2 →
          ∀ c, scoreMatrix 2 (fun _ _ => 1) pmFalse ceDepthsFlat (t + 1) c = none)))
    ∧ (∀ t, t < 2 → ceDepthsFlat t = ceDepthsFlat (argminIdx ceDepthsFlat 2) →
        argminIdx ceDepthsFlat 2 ≤ t)
    ∧ ((∀ i, i < 2 → i ≠ argminIdx ceDepthsFlat 2 →
          ceDepthsFlat (argminIdx ceDepthsFlat 2) < ceDepthsFlat i) →
        ∀ d, d < 2 → pmFalse d = false →
          ∃ c, scoreMatrix 2 (fun _ _ => 1) pmFalse ceDepthsFlat (d + 1) c ≠ none) :=
  C10_directed_root_arc 2 (fun _ _ => 1) pmFalse ceDepthsFlat (by omega) (by decide)
